import Mathlib

/-!
Verification of the `lrtm_count_distinct` aggregate (src/lrtm_count_distinct.c).

The C source maintains, per aggregation group, an `element_set_t`: a flat byte
buffer holding `nall` fixed-width elements of `item_size` bytes each, of which
the first `nsorted` form a strictly increasing duplicate-free run under
byte-wise (`memcmp`) comparison.  This file is a shallow embedding of that
structure and of the operations `compact_set`, `add_element`, `init_set`,
`lrtm_count_distinct_combine`, `lrtm_count_distinct_serial`,
`lrtm_count_distinct_deserial`, `lrtm_count_distinct` (final function) and the
append transition functions, together with proofs about them.

Modelling decisions, justified where they appear:
* an element is the list of its `item_size` bytes (`Elem := List Nat`);
  `memcmp` on two `item_size`-byte buffers is lexicographic comparison of
  those lists (`memcmpo`);
* the data buffer is modelled as the list of stored elements; the C field
  `nall` always equals the number of stored elements, so it is represented
  by `data.length`, and the capacity `nbytes` is kept as a field; bytes of
  the allocation beyond the stored elements are uninitialized, and the one
  function that can read them — the merge loop of
  `lrtm_count_distinct_combine`, whose pointer bounds are the capacity
  ends, not the valid-data ends — takes their contents as an explicit
  parameter (see `combineLoop` / `combineSupply`);
* the floating point computations in `compact_set` (`free_fract < 0.2` and
  `nbytes / 0.8 < ALLOCSET_SEPARATE_THRESHOLD`, both on quantities below
  2^32) are provably equivalent to exact integer comparisons, which is what
  the model uses; the equivalence argument is given at the definitions.
-/

namespace LrtmCountDistinct

/-- One stored element: the `item_size` bytes of one fixed-width value,
in buffer order.  Elements are compared byte-wise via `memcmp`. -/
abbrev Elem := List Nat

/-- Byte-wise comparison of two elements: the model of
`memcmp(a, b, item_size)` as used by `compare_items` and by the merge loops.
In the program `memcmp` is only ever applied to two buffers of exactly
`item_size` bytes, where it is lexicographic comparison of the byte lists;
on lists of unequal length (never reached) this definition extends it by the
standard lexicographic rule so that the comparison is total. -/
def memcmpo : Elem → Elem → Ordering
  | [], [] => Ordering.eq
  | [], _ :: _ => Ordering.lt
  | _ :: _, [] => Ordering.gt
  | a :: as, b :: bs =>
    if a < b then Ordering.lt else if b < a then Ordering.gt else memcmpo as bs

/-- Strict byte-wise order: `memcmp(a,b) < 0`. -/
def elt (a b : Elem) : Prop := memcmpo a b = Ordering.lt

/-- Non-strict byte-wise order: `memcmp(a,b) <= 0`. -/
def ele (a b : Elem) : Prop := memcmpo a b ≠ Ordering.gt

instance decElt : DecidableRel elt := fun a b =>
  inferInstanceAs (Decidable (memcmpo a b = Ordering.lt))

instance decEle : DecidableRel ele := fun a b =>
  inferInstanceAs (Decidable (memcmpo a b ≠ Ordering.gt))

/-- A strictly increasing, duplicate-free run of elements (the shape of the
sorted part of the buffer). -/
def SortedU (l : List Elem) : Prop := l.Pairwise elt

instance decSortedU (l : List Elem) : Decidable (SortedU l) := by
  unfold SortedU
  infer_instance

/-- A non-strictly sorted run (output of the qsort step, duplicates allowed). -/
def SortedLe (l : List Elem) : Prop := l.Pairwise ele

/-! ## Sorting the unsorted suffix (`qsort_arg` with `compare_items`)

`compact_set` sorts the unsorted suffix with `qsort_arg`, comparing whole
elements with `compare_items` (= `memcmp` over `item_size` bytes).  Because
two elements that compare equal under `memcmp` are byte-for-byte identical,
every comparison-sorted permutation of a given multiset of elements is the
same list, so the choice of sorting algorithm is immaterial; the model uses
insertion sort. -/

/-- Insert an element into a (non-strictly) sorted list, keeping it sorted. -/
def insSorted (x : Elem) : List Elem → List Elem
  | [] => [x]
  | y :: ys => if memcmpo x y = Ordering.gt then y :: insSorted x ys else x :: y :: ys

/-- The model of the `qsort_arg` call: a comparison sort by `memcmpo`. -/
def qsortModel : List Elem → List Elem
  | [] => []
  | x :: xs => insSorted x (qsortModel xs)

/-! ## The duplicate-removal scan of `compact_set`

After sorting, `compact_set` removes adjacent duplicates from the suffix with
one forward scan: it keeps a pointer `last` to the most recently kept element
and keeps the current element exactly when `memcmp(last, curr) != 0`. -/

/-- The scan over the elements after the first one; `lastv` is the most
recently kept element. -/
def dedupTail (lastv : Elem) : List Elem → List Elem
  | [] => []
  | c :: rest =>
    if memcmpo lastv c ≠ Ordering.eq then c :: dedupTail c rest else dedupTail lastv rest

/-- The whole dedup scan: the first element is always kept. -/
def dedupAdj : List Elem → List Elem
  | [] => []
  | x :: xs => x :: dedupTail x xs

/-! ## The sorted two-way merge of `compact_set`

When the sorted run and the deduplicated suffix are both non-empty,
`compact_set` merges them into a fresh buffer: it repeatedly copies the
smaller of the two heads (on `memcmp` equality it copies one and advances
both), and when either side is exhausted it bulk-copies the remainder of the
other.  The two inlined base cases below are exactly that remainder copy. -/

def mergeStep : List Elem → List Elem → List Elem
  | [], ys => ys
  | xs, [] => xs
  | a :: as, b :: bs =>
    match memcmpo a b with
    | Ordering.eq => a :: mergeStep as bs
    | Ordering.lt => a :: mergeStep as (b :: bs)
    | Ordering.gt => b :: mergeStep (a :: as) bs
termination_by xs ys => xs.length + ys.length

/-! ## The merge loop of `lrtm_count_distinct_combine`

The combine function merges the two compacted arrays with a loop of exactly
`nall1 + nall2` iterations (`nall` read after the `compact_set` calls).
Each iteration picks one element: if both sides are still available it
takes the side whose head satisfies `memcmp(ptr1, ptr2) <= 0` (ties go to
the first side), otherwise it takes from whichever side remains; a picked
element is written to the output only when it differs (`memcmp != 0`) from
the previously written element `prev` (`tmp == data` — nothing written yet
— writes unconditionally).

Crucially, the loop's availability tests are the *capacity* bounds
`ptr < data + nbytes`, not the valid-data bounds `data + nall * item_size`
(those appear only in the post-loop `Assert`s).  So a side stays available
for `ceil(nbytes / item_size)` takes: its `nall` stored elements first,
then `item_size`-byte reads of the uninitialized bytes between
`nall * item_size` and `nbytes`.  Whenever `nbytes > nall * item_size`
(capacity slack) the loop can therefore consume garbage in place of the
other side's real elements.  `combineLoop` models this faithfully: the fuel
is the iteration count, each side's input list is its supply — stored
elements followed by the uninitialized chunks, passed in explicitly as a
parameter (`combineSupply`) because the C result depends on memory contents
outside the struct's logical state.  The `elog(ERROR, "unexpected")` branch
(both sides exhausted before the iteration count runs out) aborts the
query; it is unreachable in the program because the two supplies together
always hold at least `nall1 + nall2` elements, and the model emits nothing
further there. -/

/-- The merge loop of `lrtm_count_distinct_combine`, literally: first
argument the remaining iteration count of `for (i = 0; i < nall1 + nall2;
i++)`, second the `prev` pointer (`none` while `tmp == data`), then the two
remaining supplies (stored elements, then uninitialized chunks, cut off at
the capacity bound). -/
def combineLoop : Nat → Option Elem → List Elem → List Elem → List Elem
  | 0, _, _, _ => []
  | n + 1, none, a :: as, b :: bs =>
    if memcmpo a b ≠ Ordering.gt then a :: combineLoop n (some a) as (b :: bs)
    else b :: combineLoop n (some b) (a :: as) bs
  | n + 1, some p, a :: as, b :: bs =>
    if memcmpo a b ≠ Ordering.gt then
      if memcmpo p a = Ordering.eq then combineLoop n (some p) as (b :: bs)
      else a :: combineLoop n (some a) as (b :: bs)
    else
      if memcmpo p b = Ordering.eq then combineLoop n (some p) (a :: as) bs
      else b :: combineLoop n (some b) (a :: as) bs
  | n + 1, none, a :: as, [] => a :: combineLoop n (some a) as []
  | n + 1, some p, a :: as, [] =>
    if memcmpo p a = Ordering.eq then combineLoop n (some p) as []
    else a :: combineLoop n (some a) as []
  | n + 1, none, [], b :: bs => b :: combineLoop n (some b) [] bs
  | n + 1, some p, [], b :: bs =>
    if memcmpo p b = Ordering.eq then combineLoop n (some p) [] bs
    else b :: combineLoop n (some b) [] bs
  | _ + 1, _, [], [] => []

/-- Proof device for reasoning about `combineLoop` on *tight* operands
(`nbytes = nall * item_size`), where each supply is exactly the stored
element list and the loop runs until both are exhausted: the loop after the
first write, with `prev` the most recently written element.
`combineLoop_eq` proves the loop equal to this on that domain. -/
def mergeDedupGo : Elem → List Elem → List Elem → List Elem
  | _, [], [] => []
  | prev, [], b :: bs =>
    if memcmpo prev b = Ordering.eq then mergeDedupGo prev [] bs
    else b :: mergeDedupGo b [] bs
  | prev, a :: as, [] =>
    if memcmpo prev a = Ordering.eq then mergeDedupGo prev as []
    else a :: mergeDedupGo a as []
  | prev, a :: as, b :: bs =>
    if memcmpo a b ≠ Ordering.gt then
      if memcmpo prev a = Ordering.eq then mergeDedupGo prev as (b :: bs)
      else a :: mergeDedupGo a as (b :: bs)
    else
      if memcmpo prev b = Ordering.eq then mergeDedupGo prev (a :: as) bs
      else b :: mergeDedupGo b (a :: as) bs
termination_by _ xs ys => xs.length + ys.length

/-- Proof device, companion to `mergeDedupGo`: the whole tight-operand
merge, the first picked element written unconditionally (`tmp == data`). -/
def mergeDedup : List Elem → List Elem → List Elem
  | [], [] => []
  | [], b :: bs => b :: mergeDedupGo b [] bs
  | a :: as, [] => a :: mergeDedupGo a as []
  | a :: as, b :: bs =>
    if memcmpo a b ≠ Ordering.gt then a :: mergeDedupGo a as (b :: bs)
    else b :: mergeDedupGo b (a :: as) bs

/-! ## The aggregate state `element_set_t`

The C struct fields `item_size`, `nsorted`, `nall`, `nbytes` (all `uint32`),
`typalign` (`char`), `aggctx` (`MemoryContext`, a pointer) and `data` are
modelled as follows: `data` is the list of the `nall` stored elements in
buffer order, so the field `nall` is represented by `data.length`; `nbytes`
is the byte capacity of the allocation; `typalign` and `aggctx` are kept as
opaque natural numbers (the byte value of the alignment character, and the
pointer value of the memory context) because `lrtm_count_distinct_serial`
copies both of them into the serialized header.  Buffer bytes past the
stored elements are uninitialized in C; the only operation that can read
them is the combine merge loop, which therefore takes their contents as an
explicit parameter (`combineSupply`) rather than from this structure.
`uint32` overflow is not modelled: `palloc` caps an allocation at
1 GB, so `nbytes` and byte counts stay far below `2^32` in every reachable
state. -/
structure element_set_t where
  item_size : Nat
  nsorted : Nat
  nbytes : Nat
  typalign : Nat
  aggctx : Nat
  data : List Elem
deriving DecidableEq

/-- The C field `nall`: the number of stored elements. -/
def element_set_t.nall (e : element_set_t) : Nat := e.data.length

/-- `ARRAY_INIT_SIZE`: initial capacity in bytes. -/
def ARRAY_INIT_SIZE : Nat := 32

/-- `ALLOCSET_SEPARATE_THRESHOLD` from the PostgreSQL headers (8 kB): the
"large allocation" crossover of the growth policy. -/
def ALLOCSET_SEPARATE_THRESHOLD : Nat := 8192

/-- `init_set(item_size, typalign, ctx)`. -/
def init_set (item_size : Nat) (typalign : Nat) (aggctx : Nat) : element_set_t :=
  { item_size := item_size, nsorted := 0, nbytes := ARRAY_INIT_SIZE,
    typalign := typalign, aggctx := aggctx, data := [] }

/-- The sort / dedup / merge part of `compact_set` (everything before the
growth step).  If there are unsorted items (`nall > nsorted`) they are
sorted with `qsort_arg` and deduplicated by the forward scan; then, if the
sorted run was empty the deduplicated suffix becomes the whole contents
(`nsorted = nall`), and otherwise (the run is non-empty, and the suffix
still has at least one element, so the C test `nsorted < nall` succeeds)
the run and the suffix are merged into a fresh buffer of the same capacity. -/
def compactCore (e : element_set_t) : element_set_t :=
  if e.nsorted < e.data.length then
    if e.nsorted = 0 then
      { e with nsorted := (dedupAdj (qsortModel (e.data.drop e.nsorted))).length,
               data := dedupAdj (qsortModel (e.data.drop e.nsorted)) }
    else
      { e with
          nsorted :=
            (mergeStep (e.data.take e.nsorted)
              (dedupAdj (qsortModel (e.data.drop e.nsorted)))).length,
          data :=
            mergeStep (e.data.take e.nsorted)
              (dedupAdj (qsortModel (e.data.drop e.nsorted))) }
  else e

/-- The capacity growth of `compact_set`: `nbytes *= 2` while
`nbytes / 0.8 < ALLOCSET_SEPARATE_THRESHOLD`, else `nbytes /= 0.8`.
Integer form of the two floating-point steps (`nbytes < 2^32 < 2^53` is
exact in double precision, and `0.8` rounds to `0.8 * (1 + 2^-54)`):
`(double)nbytes / 0.8 < 8192.0` holds iff `5 * nbytes < 4 * 8192`, and the
value of `nbytes /= 0.8`, a correctly rounded division truncated back to an
integer, is exactly `5 * nbytes / 4` in integer division. -/
def growCap (nbytes : Nat) : Nat :=
  if 5 * nbytes < 4 * ALLOCSET_SEPARATE_THRESHOLD then 2 * nbytes else 5 * nbytes / 4

/-- The growth step of `compact_set`: grow iff space was requested and the
free fraction after compaction is below `ARRAY_FREE_FRACT = 0.2`.
`free_fract = (nbytes - nall*item_size) / nbytes < 0.2` is computed in
double precision; for `nall*item_size ≤ nbytes < 2^32` (the representation
invariant, assumed by every theorem below) it holds iff
`5 * (nbytes - nall*item_size) < nbytes` over the integers, because any
exact quotient below `1/5` is below it by more than `1/(5*2^32)`, far
beyond the rounding error, and rounding is monotone. -/
def maybeGrow (need_space : Bool) (e : element_set_t) : element_set_t :=
  if need_space ∧ 5 * (e.nbytes - e.data.length * e.item_size) < e.nbytes then
    { e with nbytes := growCap e.nbytes }
  else e

/-- `compact_set(eset, need_space)`: sort/dedup/merge, then optional growth. -/
def compact_set (e : element_set_t) (need_space : Bool) : element_set_t :=
  maybeGrow need_space (compactCore e)

/-- `add_element(eset, value)`: if storing one more element would exceed
`nbytes`, first run `compact_set(eset, true)`; then store the element at
index `nall` and increment `nall`. -/
def add_element (e : element_set_t) (value : Elem) : element_set_t :=
  let e1 := if e.nbytes < e.item_size * (e.data.length + 1) then compact_set e true else e
  { e1 with data := e1.data ++ [value] }

/-- What the combine merge loop can read from one (already compacted) side:
the stored elements, then the side's uninitialized slack — passed in as the
parameter `g`, one `item_size`-byte chunk per entry — cut off at the
capacity bound: the k-th take needs `(k-1) * item_size < nbytes`, so a side
supplies at most `ceil(nbytes / item_size)` elements.  (The last chunk of a
capacity that is not a multiple of `item_size` would even read past the
allocation; its value is garbage either way.) -/
def combineSupply (g : List Elem) (c : element_set_t) : List Elem :=
  (c.data ++ g).take ((c.nbytes + c.item_size - 1) / c.item_size)

/-- The element array built by the combine merge loop: `nall1 + nall2`
iterations (counts read after the compaction of both sides) over the two
capacity-bounded supplies; `g1`, `g2` are the two buffers' uninitialized
slack contents. -/
def combineMergedData (g1 g2 : List Elem) (e1 e2 : element_set_t) : List Elem :=
  combineLoop ((compact_set e1 false).data.length + (compact_set e2 false).data.length)
    none (combineSupply g1 (compact_set e1 false)) (combineSupply g2 (compact_set e2 false))

/-- The body of `lrtm_count_distinct_combine` for two present states: both
are compacted in place, the merge loop writes into a fresh allocation, and
the first state is updated in place: its old buffer is freed, `nbytes`
becomes the number of bytes actually written (`tmp - data`), `nall` becomes
`nbytes / item_size`, and `nsorted = nall`.  The function returns the
updated first state and the (compacted in place) second state.  `g1`, `g2`
are the uninitialized slack contents of the two buffers, which the merge
loop can consume whenever a side has capacity slack. -/
def combine2 (g1 g2 : List Elem) (e1 e2 : element_set_t) :
    element_set_t × element_set_t :=
  ({ compact_set e1 false with
      nbytes := ((combineMergedData g1 g2 e1 e2).map List.length).sum,
      nsorted :=
        ((combineMergedData g1 g2 e1 e2).map List.length).sum /
          (compact_set e1 false).item_size,
      data := combineMergedData g1 g2 e1 e2 },
   compact_set e2 false)

/-- `lrtm_count_distinct_combine`: `NULL` handling around `combine2`.  If
the second state is absent the first (possibly absent) is returned; if only
the first is absent, a fresh state is allocated and the second state's
fields `item_size`, `nsorted`, `nall`, `nbytes` and buffer contents are
copied into it (`typalign` and `aggctx` are left uninitialized by the C
code; the model uses 0, and no theorem depends on them).  The pair holds
the returned first state and the state the second argument points to after
the call. -/
def lrtm_count_distinct_combine (g1 g2 : List Elem) :
    Option element_set_t → Option element_set_t →
      Option element_set_t × Option element_set_t
  | st1, none => (st1, none)
  | none, some e2 =>
    (some { item_size := e2.item_size, nsorted := e2.nsorted, nbytes := e2.nbytes,
            typalign := 0, aggctx := 0, data := e2.data }, some e2)
  | some e1, some e2 => (some (combine2 g1 g2 e1 e2).1, some (combine2 g1 g2 e1 e2).2)

/-! ## Serialization

`lrtm_count_distinct_serial` copies `hlen = offsetof(element_set_t, data)`
bytes of the struct — that is, the four `uint32` fields **and** the
`typalign` char, the alignment padding, and the raw `aggctx` pointer — and
then `nall * item_size` bytes of element data.  On an LP64 platform
`offsetof(element_set_t, data)` is 32 (4*4 bytes of counters, 1 byte
`typalign`, 7 bytes padding, 8 bytes pointer); on any C ABI it is at least
17, i.e. strictly more than the 16 bytes of the four counters.  The model
keeps the header fields structurally rather than as encoded bytes; the
padding bytes (uninitialized memory) carry no information and are not
modelled. -/
structure SerializedState where
  s_item_size : Nat
  s_nsorted : Nat
  s_nall : Nat
  s_nbytes : Nat
  s_typalign : Nat
  s_aggctx : Nat
  sdata : List Nat
deriving DecidableEq

/-- `offsetof(element_set_t, data)` on LP64: the serialized header length. -/
def HEADER_BYTES : Nat := 32

/-- `VARSIZE_ANY_EXHDR` of the emitted payload: header plus data bytes. -/
def SerializedState.payloadLen (p : SerializedState) : Nat :=
  HEADER_BYTES + p.sdata.length

/-- `lrtm_count_distinct_serial`: compact fully (`need_space = false`), then
emit the struct header followed by the `nall * item_size` element data
bytes.  Returns the payload and the (compacted in place) state. -/
def lrtm_count_distinct_serial (e : element_set_t) :
    SerializedState × element_set_t :=
  ({ s_item_size := (compact_set e false).item_size,
     s_nsorted := (compact_set e false).nsorted,
     s_nall := (compact_set e false).data.length,
     s_nbytes := (compact_set e false).nbytes,
     s_typalign := (compact_set e false).typalign,
     s_aggctx := (compact_set e false).aggctx,
     sdata := (compact_set e false).data.flatten }, compact_set e false)

/-- Splitting a byte list into consecutive `s`-byte elements; the fuel
argument (an upper bound on the number of chunks) makes the recursion
structural. -/
def chunkN (s : Nat) : Nat → List Nat → List Elem
  | 0, _ => []
  | _ + 1, [] => []
  | n + 1, b :: bs => (b :: bs).take s :: chunkN s n ((b :: bs).drop s)

/-- The element array reconstructed by `memcpy` in the deserializer: the
byte stream cut into `item_size`-byte elements. -/
def chunkElems (s : Nat) (bytes : List Nat) : List Elem := chunkN s bytes.length bytes

/-- `lrtm_count_distinct_deserial`.  All validation in the C function is
done with `Assert`: `len - hlen > 0`, `nall > 0 && nall == nsorted`, and
`len == hlen + nall * item_size`.  The flag `checksOn` models
`USE_ASSERT_CHECKING`: with assertions enabled a failed check aborts
(modelled as `Except.error`); with assertions disabled the checks are
compiled out and the state is built unconditionally.  The function then
allocates exactly `nall * item_size` bytes, sets `nbytes` to that size
(overwriting the capacity copied from the header) and copies the element
data.  When the payload holds fewer than `nall * item_size` data bytes the
C `memcpy` reads out of bounds (undefined behavior); the model reads the
bytes that exist. -/
def lrtm_count_distinct_deserial (checksOn : Bool) (p : SerializedState) :
    Except String element_set_t :=
  if checksOn ∧ ¬(0 < p.sdata.length ∧ 0 < p.s_nall ∧ p.s_nall = p.s_nsorted ∧
      p.sdata.length = p.s_nall * p.s_item_size) then
    Except.error "invalid serialized state"
  else
    Except.ok
      { item_size := p.s_item_size, nsorted := p.s_nsorted,
        nbytes := p.s_nall * p.s_item_size,
        typalign := p.s_typalign, aggctx := p.s_aggctx,
        data := chunkElems p.s_item_size (p.sdata.take (p.s_nall * p.s_item_size)) }

/-! ## Final function and transition functions -/

/-- `lrtm_count_distinct` (final function): a `NULL` (absent) state returns
SQL `NULL`; a present state is compacted (`need_space = false`) and `nall`
is returned.  The pair holds the returned count and the state after the
call. -/
def lrtm_count_distinct :
    Option element_set_t → Option (Nat × element_set_t)
  | none => none
  | some e => some ((compact_set e false).data.length, compact_set e false)

/-- The per-call type metadata obtained from `get_typlenbyvalalign`. -/
structure TypMeta where
  typlen : Int
  typbyval : Bool
  typalign : Nat
deriving DecidableEq

/-- `lrtm_count_distinct_append`: `NULL` value handling, lazy creation of
the state on the first non-`NULL` value (rejecting variable-length or
by-reference types with `elog(ERROR, ...)`, modelled as `Except.error`),
then `add_element`. -/
def lrtm_count_distinct_append (meta : TypMeta) (aggctx : Nat)
    (st : Option element_set_t) (v : Option Elem) :
    Except String (Option element_set_t) :=
  match v, st with
  | none, none => Except.ok none
  | none, some e => Except.ok (some e)
  | some value, none =>
    if meta.typlen < 0 ∨ ¬meta.typbyval then
      Except.error "lrtm_count_distinct handles only fixed-length types passed by value"
    else
      Except.ok (some (add_element (init_set meta.typlen.toNat meta.typalign aggctx) value))
  | some value, some e => Except.ok (some (add_element e value))

/-- The loop of `lrtm_count_distinct_elements_append` over the array items.
`none` items are the ones whose null-bitmap bit is clear; they are skipped.
The accumulator is the local variable `eset`, initialized to `NULL`: on the
first non-null item it is seeded from the aggregate state parameter `st`
(creating a fresh set if `st` is absent, after the type check). -/
def elemsLoop (meta : TypMeta) (aggctx : Nat) (st : Option element_set_t) :
    Option element_set_t → List (Option Elem) → Except String (Option element_set_t)
  | acc, [] => Except.ok acc
  | acc, none :: rest => elemsLoop meta aggctx st acc rest
  | some e, some v :: rest => elemsLoop meta aggctx st (some (add_element e v)) rest
  | none, some v :: rest =>
    match st with
    | some e => elemsLoop meta aggctx st (some (add_element e v)) rest
    | none =>
      if meta.typlen < 0 ∨ ¬meta.typbyval then
        Except.error "lrtm_count_distinct_elements handles only arrays of fixed-length types passed by value"
      else
        elemsLoop meta aggctx st
          (some (add_element (init_set meta.typlen.toNat meta.typalign aggctx) v)) rest

/-- `lrtm_count_distinct_elements_append`: a `NULL` array argument returns
the current state (or SQL `NULL` if that is also absent); otherwise the
loop runs over the items and the local `eset` — still `NULL` when every
item was null, even if the state parameter was present — is returned. -/
def lrtm_count_distinct_elements_append (meta : TypMeta) (aggctx : Nat)
    (st : Option element_set_t) (arr : Option (List (Option Elem))) :
    Except String (Option element_set_t) :=
  match arr, st with
  | none, none => Except.ok none
  | none, some e => Except.ok (some e)
  | some items, _ => elemsLoop meta aggctx st none items

/-! ## Representation invariants -/

/-- The documented invariants of a live set: positive element width,
`nsorted <= nall`, `nall * item_size <= nbytes`, a strictly increasing
duplicate-free sorted run, and every stored element `item_size` bytes wide. -/
def WF (e : element_set_t) : Prop :=
  0 < e.item_size ∧
  e.nsorted ≤ e.data.length ∧
  e.data.length * e.item_size ≤ e.nbytes ∧
  SortedU (e.data.take e.nsorted) ∧
  (∀ x ∈ e.data, x.length = e.item_size)

/-- The capacity shape every reachable state has: the buffer holds at least
one element's worth of bytes, and the capacity is either a multiple of
`item_size` (as produced by `init_set`, doubling, combine and deserialize)
or at least `5 * item_size` (as produced by the 1.25-factor growth, which
only fires above `ALLOCSET_SEPARATE_THRESHOLD`).  This is what makes the
20%-free-space test sufficient for one more element in `add_element`. -/
def CapInv (e : element_set_t) : Prop :=
  e.item_size ≤ e.nbytes ∧
    (e.item_size ∣ e.nbytes ∨ 5 * e.item_size ≤ e.nbytes)

/-! ## Serialization round trip -/

/-! ## Capacity and growth -/

/-- The widths admitted by the type check: `typlen` of a by-value type is
1, 2, 4 or 8 bytes. -/
def ByValWidth (s : Nat) : Prop := s = 1 ∨ s = 2 ∨ s = 4 ∨ s = 8

/-- A buffer with no capacity slack: `nbytes = nall * item_size`.  Every
state that reaches the combine merge loop in the program has this shape —
deserialized states (`nbytes` set to exactly `nall * item_size`), the copy
the `eset1 == NULL` branch makes of one, and prior combine results
(`nbytes = tmp - data`, the bytes actually written) — and on tight operands
the loop's capacity bounds coincide with the valid-data bounds. -/
def Tight (e : element_set_t) : Prop := e.nbytes = e.data.length * e.item_size

/-! ## Further supporting lemmas and concrete states -/

instance decWF (e : element_set_t) : Decidable (WF e) := by
  unfold WF SortedU
  infer_instance

instance decCapInv (e : element_set_t) : Decidable (CapInv e) := by
  unfold CapInv
  infer_instance

instance decByValWidth (s : Nat) : Decidable (ByValWidth s) := by
  unfold ByValWidth
  infer_instance

instance decTight (e : element_set_t) : Decidable (Tight e) := by
  unfold Tight
  infer_instance

/-- Concrete well-formed states and payloads used to instantiate the
theorems at concrete inputs. -/
def cA : element_set_t :=
  { item_size := 1, nsorted := 1, nbytes := 32, typalign := 0, aggctx := 0, data := [[2]] }

def cB : element_set_t :=
  { item_size := 1, nsorted := 0, nbytes := 32, typalign := 0, aggctx := 0, data := [[4], [4]] }

def cC : element_set_t :=
  { item_size := 1, nsorted := 1, nbytes := 32, typalign := 0, aggctx := 0, data := [[6]] }

/-- Two states identical in the four counter fields and contents, differing
only in the cached `typalign` byte. -/
def cT1 : element_set_t :=
  { item_size := 1, nsorted := 1, nbytes := 32, typalign := 0, aggctx := 0, data := [[7]] }

def cT2 : element_set_t :=
  { item_size := 1, nsorted := 1, nbytes := 32, typalign := 1, aggctx := 0, data := [[7]] }

/-- A malformed payload: the header announces one 1-byte element but two
data bytes follow, so the length check `len == hlen + nall * item_size`
fails. -/
def pBad : SerializedState :=
  { s_item_size := 1, s_nsorted := 1, s_nall := 1, s_nbytes := 1,
    s_typalign := 0, s_aggctx := 0, sdata := [5, 6] }

def mOk : TypMeta := { typlen := 4, typbyval := true, typalign := 0 }

/-- A full state (no free space) about to trigger the growth path:
appending one more 1-byte element exceeds the 2-byte capacity. -/
def cF : element_set_t :=
  { item_size := 1, nsorted := 0, nbytes := 2, typalign := 0, aggctx := 0,
    data := [[1], [1]] }

def cS : element_set_t :=
  { item_size := 4, nsorted := 1, nbytes := 32, typalign := 0, aggctx := 0,
    data := [[1, 0, 0, 0]] }

/-- Fully compacted tight singleton states (the shape combine operands have
in the program). -/
def cD : element_set_t :=
  { item_size := 1, nsorted := 1, nbytes := 1, typalign := 0, aggctx := 0, data := [[4]] }

def cE : element_set_t :=
  { item_size := 1, nsorted := 1, nbytes := 1, typalign := 0, aggctx := 0, data := [[9]] }

def cH : element_set_t :=
  { item_size := 1, nsorted := 1, nbytes := 1, typalign := 0, aggctx := 0, data := [[6]] }

/-- A fully compacted state with capacity slack: one stored 1-byte element
in a 32-byte buffer, so the combine merge loop treats its side as available
for 31 further garbage reads. -/
def cG : element_set_t :=
  { item_size := 1, nsorted := 1, nbytes := 32, typalign := 0, aggctx := 0, data := [[3]] }

/-! ## Theorems -/

/-! ## The claims -/

/-! ## Theorems -/

theorem memcmpo_eq_iff : ∀ a b : Elem, memcmpo a b = Ordering.eq ↔ a = b := by
  intro a
  induction a with
  | nil => intro b; cases b <;> simp [memcmpo]
  | cons x xs ih =>
    intro b
    cases b with
    | nil => simp [memcmpo]
    | cons y ys =>
      simp only [memcmpo]
      by_cases h1 : x < y
      · simp only [if_pos h1]
        constructor
        · intro h; exact absurd h (by decide)
        · intro h
          injection h with h2 h3
          omega
      · by_cases h2 : y < x
        · simp only [if_neg h1, if_pos h2]
          constructor
          · intro h; exact absurd h (by decide)
          · intro h
            injection h with h3 h4
            omega
        · have hxy : x = y := by omega
          subst hxy
          simp only [if_neg h1, if_neg h2, ih ys]
          constructor
          · intro h; rw [h]
          · intro h; injection h

theorem memcmpo_self (a : Elem) : memcmpo a a = Ordering.eq :=
  (memcmpo_eq_iff a a).2 rfl

theorem memcmpo_lt_iff_gt : ∀ a b : Elem, memcmpo a b = Ordering.lt ↔ memcmpo b a = Ordering.gt := by
  intro a
  induction a with
  | nil => intro b; cases b <;> simp [memcmpo]
  | cons x xs ih =>
    intro b
    cases b with
    | nil => simp [memcmpo]
    | cons y ys =>
      simp only [memcmpo]
      by_cases h1 : x < y
      · have h2 : ¬ y < x := by omega
        simp [h1, h2]
      · by_cases h2 : y < x
        · simp [h1, h2]
        · simp [h1, h2, ih ys]

theorem memcmpo_trans_lt :
    ∀ a b c : Elem, memcmpo a b = Ordering.lt → memcmpo b c = Ordering.lt →
      memcmpo a c = Ordering.lt := by
  intro a
  induction a with
  | nil =>
    intro b c hab hbc
    cases b with
    | nil => exact hbc
    | cons y ys =>
      cases c with
      | nil => simp [memcmpo] at hbc
      | cons z zs => simp [memcmpo]
  | cons x xs ih =>
    intro b c hab hbc
    cases b with
    | nil => simp [memcmpo] at hab
    | cons y ys =>
      cases c with
      | nil => simp [memcmpo] at hbc
      | cons z zs =>
        simp only [memcmpo] at hab hbc ⊢
        by_cases hxy : x < y
        · by_cases hyz : y < z
          · have hxz : x < z := by omega
            simp [hxz]
          · by_cases hzy : z < y
            · simp [hyz, hzy] at hbc
            · have hyz2 : y = z := by omega
              have hxz : x < z := by omega
              simp [hxz]
        · by_cases hyx : y < x
          · simp [hxy, hyx] at hab
          · have hxy2 : x = y := by omega
            subst hxy2
            simp only [if_neg hxy, if_neg hyx] at hab
            by_cases hyz : x < z
            · simp [hyz]
            · by_cases hzy : z < x
              · simp [hyz, hzy] at hbc
              · simp only [if_neg hyz, if_neg hzy] at hbc ⊢
                exact ih ys zs hab hbc

theorem memcmpo_cases (a b : Elem) :
    memcmpo a b = Ordering.lt ∨ memcmpo a b = Ordering.eq ∨ memcmpo a b = Ordering.gt := by
  cases h : memcmpo a b
  · exact Or.inl rfl
  · exact Or.inr (Or.inl rfl)
  · exact Or.inr (Or.inr rfl)

theorem elt_irrefl (a : Elem) : ¬ elt a a := by
  simp [elt, memcmpo_self]

theorem elt_asymm {a b : Elem} (h : elt a b) : ¬ elt b a := by
  intro h2
  have := memcmpo_trans_lt a b a h h2
  simp [memcmpo_self] at this

theorem elt_ne {a b : Elem} (h : elt a b) : a ≠ b := by
  intro he
  subst he
  exact elt_irrefl a h

theorem elt_trans {a b c : Elem} (h1 : elt a b) (h2 : elt b c) : elt a c :=
  memcmpo_trans_lt a b c h1 h2

theorem ele_of_elt {a b : Elem} (h : elt a b) : ele a b := by
  simp only [elt] at h
  simp [ele, h]

theorem ele_refl (a : Elem) : ele a a := by
  simp [ele, memcmpo_self]

theorem elt_or_eq_of_ele {a b : Elem} (h : ele a b) : elt a b ∨ a = b := by
  rcases memcmpo_cases a b with hc | hc | hc
  · exact Or.inl hc
  · exact Or.inr ((memcmpo_eq_iff a b).1 hc)
  · exact absurd hc h

theorem ele_total (a b : Elem) : ele a b ∨ ele b a := by
  rcases memcmpo_cases a b with hc | hc | hc
  · exact Or.inl (by simp [ele, hc])
  · exact Or.inl (by simp [ele, hc])
  · refine Or.inr ?_
    have hba : memcmpo b a = Ordering.lt := (memcmpo_lt_iff_gt b a).2 hc
    simp [ele, hba]

theorem elt_of_ele_of_elt {a b c : Elem} (h1 : ele a b) (h2 : elt b c) : elt a c := by
  rcases elt_or_eq_of_ele h1 with h | h
  · exact elt_trans h h2
  · subst h; exact h2

theorem elt_of_elt_of_ele {a b c : Elem} (h1 : elt a b) (h2 : ele b c) : elt a c := by
  rcases elt_or_eq_of_ele h2 with h | h
  · exact elt_trans h1 h
  · subst h; exact h1

theorem ele_trans {a b c : Elem} (h1 : ele a b) (h2 : ele b c) : ele a c := by
  rcases elt_or_eq_of_ele h1 with h | h
  · exact ele_of_elt (elt_of_elt_of_ele h h2)
  · subst h; exact h2

theorem eq_of_ele_of_ele {a b : Elem} (h1 : ele a b) (h2 : ele b a) : a = b := by
  rcases elt_or_eq_of_ele h1 with h | h
  · exact absurd ((memcmpo_lt_iff_gt a b).1 h) h2
  · exact h

theorem elt_of_ele_of_ne {a b : Elem} (h1 : ele a b) (h2 : a ≠ b) : elt a b := by
  rcases elt_or_eq_of_ele h1 with h | h
  · exact h
  · exact absurd h h2

theorem SortedU.nodup {l : List Elem} (h : SortedU l) : l.Nodup :=
  h.imp (fun hab => elt_ne hab)

/-- Two strictly sorted duplicate-free element lists with the same members are
equal: strict sortedness is a canonical form. -/
theorem sortedU_eq_of_mem_iff :
    ∀ l₁ l₂ : List Elem, SortedU l₁ → SortedU l₂ → (∀ x, x ∈ l₁ ↔ x ∈ l₂) → l₁ = l₂ := by
  intro l₁
  induction l₁ with
  | nil =>
    intro l₂ _ _ hm
    cases l₂ with
    | nil => rfl
    | cons b bs =>
      have : b ∈ ([] : List Elem) := (hm b).2 (List.mem_cons_self b bs)
      simp at this
  | cons a as ih =>
    intro l₂ h₁ h₂ hm
    cases l₂ with
    | nil =>
      have : a ∈ ([] : List Elem) := (hm a).1 (List.mem_cons_self a as)
      simp at this
    | cons b bs =>
      rw [SortedU, List.pairwise_cons] at h₁ h₂
      have hab : a = b := by
        have ha : a ∈ b :: bs := (hm a).1 (List.mem_cons_self a as)
        have hb : b ∈ a :: as := (hm b).2 (List.mem_cons_self b bs)
        rcases List.mem_cons.1 ha with h | h
        · exact h
        · rcases List.mem_cons.1 hb with h' | h'
          · exact h'.symm
          · exact absurd (h₁.1 b h') (elt_asymm (h₂.1 a h))
      subst hab
      have hts : ∀ x, x ∈ as ↔ x ∈ bs := by
        intro x
        constructor
        · intro hx
          have hxl : x ∈ a :: bs := (hm x).1 (List.mem_cons_of_mem a hx)
          rcases List.mem_cons.1 hxl with h | h
          · exact absurd (h₁.1 x hx) (by rw [h]; exact elt_irrefl a)
          · exact h
        · intro hx
          have hxl : x ∈ a :: as := (hm x).2 (List.mem_cons_of_mem a hx)
          rcases List.mem_cons.1 hxl with h | h
          · exact absurd (h₂.1 x hx) (by rw [h]; exact elt_irrefl a)
          · exact h
      rw [ih bs h₁.2 h₂.2 hts]

theorem mem_insSorted (x : Elem) : ∀ l z, z ∈ insSorted x l ↔ z = x ∨ z ∈ l := by
  intro l
  induction l with
  | nil => intro z; simp [insSorted]
  | cons y ys ih =>
    intro z
    by_cases h : memcmpo x y = Ordering.gt
    · simp only [insSorted, if_pos h, List.mem_cons, ih z]
      tauto
    · simp only [insSorted, if_neg h, List.mem_cons]

theorem sortedLe_insSorted (x : Elem) :
    ∀ l, SortedLe l → SortedLe (insSorted x l) := by
  intro l
  induction l with
  | nil => intro _; simp [insSorted, SortedLe]
  | cons y ys ih =>
    intro h
    rw [SortedLe, List.pairwise_cons] at h
    by_cases hc : memcmpo x y = Ordering.gt
    · have hyx : ele y x := ele_of_elt ((memcmpo_lt_iff_gt y x).2 hc)
      rw [insSorted, if_pos hc, SortedLe, List.pairwise_cons]
      refine ⟨?_, ih h.2⟩
      intro z hz
      rcases (mem_insSorted x ys z).1 hz with h' | h'
      · rw [h']; exact hyx
      · exact h.1 z h'
    · have hxy : ele x y := by
        simp [ele, hc]
      rw [insSorted, if_neg hc, SortedLe, List.pairwise_cons]
      refine ⟨?_, List.pairwise_cons.2 h⟩
      intro z hz
      rcases List.mem_cons.1 hz with h' | h'
      · rw [h']; exact hxy
      · exact ele_trans hxy (h.1 z h')

theorem mem_qsortModel : ∀ l z, z ∈ qsortModel l ↔ z ∈ l := by
  intro l
  induction l with
  | nil => intro z; simp [qsortModel]
  | cons x xs ih =>
    intro z
    simp only [qsortModel, mem_insSorted, List.mem_cons, ih z]

theorem sortedLe_qsortModel : ∀ l, SortedLe (qsortModel l) := by
  intro l
  induction l with
  | nil => simp [qsortModel, SortedLe]
  | cons x xs ih => exact sortedLe_insSorted x (qsortModel xs) ih

theorem dedupTail_spec :
    ∀ (xs : List Elem) (p : Elem), SortedLe xs → (∀ z ∈ xs, ele p z) →
      SortedU (dedupTail p xs) ∧ (∀ z ∈ dedupTail p xs, elt p z) ∧
        (∀ z, z ∈ dedupTail p xs ↔ z ∈ xs ∧ z ≠ p) := by
  intro xs
  induction xs with
  | nil => intro p _ _; simp [dedupTail, SortedU]
  | cons c rest ih =>
    intro p hs hp
    rw [SortedLe, List.pairwise_cons] at hs
    by_cases hc : memcmpo p c = Ordering.eq
    · have hpc : p = c := (memcmpo_eq_iff p c).1 hc
      subst hpc
      have hrec := ih p hs.2 hs.1
      rw [dedupTail, if_neg (by simp [hc])]
      refine ⟨hrec.1, hrec.2.1, ?_⟩
      intro z
      rw [hrec.2.2 z, List.mem_cons]
      constructor
      · intro h; exact ⟨Or.inr h.1, h.2⟩
      · rintro ⟨h | h, hne⟩
        · exact absurd h hne
        · exact ⟨h, hne⟩
    · have hpc : elt p c := elt_of_ele_of_ne (hp c (List.mem_cons_self c rest)) fun he => hc ((memcmpo_eq_iff p c).2 he)
      have hrec := ih c hs.2 hs.1
      rw [dedupTail, if_pos (by simp [hc])]
      refine ⟨?_, ?_, ?_⟩
      · rw [SortedU, List.pairwise_cons]
        exact ⟨hrec.2.1, hrec.1⟩
      · intro z hz
        rcases List.mem_cons.1 hz with h | h
        · rw [h]; exact hpc
        · exact elt_trans hpc (hrec.2.1 z h)
      · intro z
        rw [List.mem_cons, hrec.2.2 z, List.mem_cons]
        constructor
        · rintro (h | ⟨h1, h2⟩)
          · refine ⟨Or.inl h, ?_⟩
            intro he
            rw [he] at h
            exact elt_ne hpc h
          · refine ⟨Or.inr h1, ?_⟩
            intro he
            subst he
            exact elt_irrefl z (elt_of_elt_of_ele hpc (hs.1 z h1))
        · rintro ⟨h | h, hne⟩
          · exact Or.inl h
          · by_cases hzc : z = c
            · exact Or.inl hzc
            · exact Or.inr ⟨h, hzc⟩

theorem dedupAdj_spec (xs : List Elem) (hs : SortedLe xs) :
    SortedU (dedupAdj xs) ∧ (∀ z, z ∈ dedupAdj xs ↔ z ∈ xs) := by
  cases xs with
  | nil => simp [dedupAdj, SortedU]
  | cons x rest =>
    rw [SortedLe, List.pairwise_cons] at hs
    have h := dedupTail_spec rest x hs.2 hs.1
    constructor
    · rw [dedupAdj, SortedU, List.pairwise_cons]
      exact ⟨h.2.1, h.1⟩
    · intro z
      rw [dedupAdj, List.mem_cons, h.2.2 z, List.mem_cons]
      constructor
      · rintro (h' | ⟨h1, _⟩)
        · exact Or.inl h'
        · exact Or.inr h1
      · rintro (h' | h')
        · exact Or.inl h'
        · by_cases hzx : z = x
          · exact Or.inl hzx
          · exact Or.inr ⟨h', hzx⟩

theorem mergeStep_spec :
    ∀ (xs ys : List Elem), SortedU xs → SortedU ys →
      SortedU (mergeStep xs ys) ∧ (∀ z, z ∈ mergeStep xs ys ↔ z ∈ xs ∨ z ∈ ys) := by
  intro xs ys
  induction xs, ys using mergeStep.induct with
  | case1 ys =>
    intro _ hy
    constructor
    · simpa [mergeStep] using hy
    · intro z; simp [mergeStep]
  | case2 xs hne =>
    intro hx _
    cases xs with
    | nil => simp [mergeStep, SortedU]
    | cons a as =>
      constructor
      · simpa [mergeStep] using hx
      · intro z; simp [mergeStep]
  | case3 a as b bs hcmp ih =>
    intro hx hy
    rw [SortedU, List.pairwise_cons] at hx hy
    have hab : a = b := (memcmpo_eq_iff a b).1 hcmp
    subst hab
    have hrec := ih hx.2 hy.2
    rw [mergeStep]
    simp only [hcmp]
    constructor
    · rw [SortedU, List.pairwise_cons]
      refine ⟨?_, hrec.1⟩
      intro z hz
      rcases (hrec.2 z).1 hz with h | h
      · exact hx.1 z h
      · exact hy.1 z h
    · intro z
      simp only [List.mem_cons, hrec.2 z]
      tauto
  | case4 a as b bs hcmp ih =>
    intro hx hy
    rw [SortedU, List.pairwise_cons] at hx
    have hrec := ih hx.2 hy
    rw [mergeStep]
    simp only [hcmp]
    constructor
    · rw [SortedU, List.pairwise_cons]
      refine ⟨?_, hrec.1⟩
      intro z hz
      rcases (hrec.2 z).1 hz with h | h
      · exact hx.1 z h
      · rcases List.mem_cons.1 h with h' | h'
        · rw [h']; exact hcmp
        · rw [SortedU, List.pairwise_cons] at hy
          exact elt_trans hcmp (hy.1 z h')
    · intro z
      simp only [List.mem_cons, hrec.2 z, List.mem_cons]
      tauto
  | case5 a as b bs hcmp ih =>
    intro hx hy
    rw [SortedU, List.pairwise_cons] at hy
    have hba : elt b a := (memcmpo_lt_iff_gt b a).2 hcmp
    have hrec := ih hx hy.2
    rw [mergeStep]
    simp only [hcmp]
    constructor
    · rw [SortedU, List.pairwise_cons]
      refine ⟨?_, hrec.1⟩
      intro z hz
      rcases (hrec.2 z).1 hz with h | h
      · rcases List.mem_cons.1 h with h' | h'
        · rw [h']; exact hba
        · rw [SortedU, List.pairwise_cons] at hx
          exact elt_trans hba (hx.1 z h')
      · exact hy.1 z h
    · intro z
      simp only [List.mem_cons, hrec.2 z, List.mem_cons]
      tauto

/-- Writing one element `e` (with `prev < e`) and continuing the loop with
`prev := e` produces a strictly sorted output containing exactly the still
unprocessed elements plus `e`, minus `prev`. -/
theorem mergeDedupGo_emit (prev e : Elem) (xs' ys' : List Elem)
    (hpe : elt prev e)
    (hrec : SortedU (mergeDedupGo e xs' ys') ∧
      (∀ z ∈ mergeDedupGo e xs' ys', elt e z) ∧
      (∀ z, z ∈ mergeDedupGo e xs' ys' ↔ (z ∈ xs' ∨ z ∈ ys') ∧ z ≠ e)) :
    SortedU (e :: mergeDedupGo e xs' ys') ∧
      (∀ z ∈ e :: mergeDedupGo e xs' ys', elt prev z) ∧
      (∀ z, z ∈ e :: mergeDedupGo e xs' ys' ↔ ((z = e ∨ z ∈ xs' ∨ z ∈ ys') ∧ z ≠ prev)) := by
  refine ⟨List.pairwise_cons.2 ⟨hrec.2.1, hrec.1⟩, ?_, ?_⟩
  · intro z hz
    rcases List.mem_cons.1 hz with h | h
    · rw [h]; exact hpe
    · exact elt_trans hpe (hrec.2.1 z h)
  · intro z
    rw [List.mem_cons, hrec.2.2 z]
    constructor
    · rintro (h | ⟨h1, h2⟩)
      · refine ⟨Or.inl h, ?_⟩
        intro he
        rw [he] at h
        exact elt_ne hpe h
      · refine ⟨Or.inr h1, ?_⟩
        intro he
        have hzgo : z ∈ mergeDedupGo e xs' ys' := (hrec.2.2 z).2 ⟨h1, h2⟩
        have hz : elt prev z := elt_trans hpe (hrec.2.1 z hzgo)
        rw [he] at hz
        exact elt_irrefl prev hz
    · rintro ⟨h | h, hne⟩
      · exact Or.inl h
      · by_cases hze : z = e
        · exact Or.inl hze
        · exact Or.inr ⟨h, hze⟩

theorem mergeDedupGo_spec :
    ∀ (prev : Elem) (xs ys : List Elem), SortedU xs → SortedU ys →
      (∀ z ∈ xs, ele prev z) → (∀ z ∈ ys, ele prev z) →
      SortedU (mergeDedupGo prev xs ys) ∧
        (∀ z ∈ mergeDedupGo prev xs ys, elt prev z) ∧
        (∀ z, z ∈ mergeDedupGo prev xs ys ↔ (z ∈ xs ∨ z ∈ ys) ∧ z ≠ prev) := by
  intro prev xs ys
  induction prev, xs, ys using mergeDedupGo.induct with
  | case1 prev =>
    intro _ _ _ _
    simp [mergeDedupGo, SortedU]
  | case2 prev b bs h ih =>
    intro _ hy _ hpy
    rw [SortedU, List.pairwise_cons] at hy
    have hpb : prev = b := (memcmpo_eq_iff prev b).1 h
    have hrec := ih (by simp [SortedU]) hy.2 (by simp)
      (fun z hz => by rw [hpb]; exact ele_of_elt (hy.1 z hz))
    simp only [mergeDedupGo, if_pos h]
    refine ⟨hrec.1, hrec.2.1, ?_⟩
    intro z
    rw [hrec.2.2 z]
    simp only [List.not_mem_nil, false_or, List.mem_cons]
    constructor
    · rintro ⟨h1, h2⟩; exact ⟨Or.inr h1, h2⟩
    · rintro ⟨h1 | h1, h2⟩
      · exact absurd (hpb.trans h1.symm).symm h2
      · exact ⟨h1, h2⟩
  | case3 prev b bs h ih =>
    intro _ hy _ hpy
    rw [SortedU, List.pairwise_cons] at hy
    have hpb : elt prev b :=
      elt_of_ele_of_ne (hpy b (List.mem_cons_self b bs))
        (fun he => h ((memcmpo_eq_iff prev b).2 he))
    have hrec := ih (by simp [SortedU]) hy.2 (by simp) (fun z hz => ele_of_elt (hy.1 z hz))
    have := mergeDedupGo_emit prev b [] bs hpb hrec
    simp only [mergeDedupGo, if_neg h]
    refine ⟨this.1, this.2.1, ?_⟩
    intro z
    rw [this.2.2 z]
    simp only [List.not_mem_nil, false_or, List.mem_cons]
  | case4 prev a as h ih =>
    intro hx _ hpx _
    rw [SortedU, List.pairwise_cons] at hx
    have hpa : prev = a := (memcmpo_eq_iff prev a).1 h
    have hrec := ih hx.2 (by simp [SortedU])
      (fun z hz => by rw [hpa]; exact ele_of_elt (hx.1 z hz)) (by simp)
    simp only [mergeDedupGo, if_pos h]
    refine ⟨hrec.1, hrec.2.1, ?_⟩
    intro z
    rw [hrec.2.2 z]
    simp only [List.not_mem_nil, or_false, List.mem_cons]
    constructor
    · rintro ⟨h1, h2⟩; exact ⟨Or.inr h1, h2⟩
    · rintro ⟨h1 | h1, h2⟩
      · exact absurd (hpa.trans h1.symm).symm h2
      · exact ⟨h1, h2⟩
  | case5 prev a as h ih =>
    intro hx _ hpx _
    rw [SortedU, List.pairwise_cons] at hx
    have hpa : elt prev a :=
      elt_of_ele_of_ne (hpx a (List.mem_cons_self a as))
        (fun he => h ((memcmpo_eq_iff prev a).2 he))
    have hrec := ih hx.2 (by simp [SortedU]) (fun z hz => ele_of_elt (hx.1 z hz)) (by simp)
    have := mergeDedupGo_emit prev a as [] hpa hrec
    simp only [mergeDedupGo, if_neg h]
    refine ⟨this.1, this.2.1, ?_⟩
    intro z
    rw [this.2.2 z]
    simp only [List.not_mem_nil, or_false, List.mem_cons]
  | case6 prev a as b bs h1 h2 ih =>
    intro hx hy hpx hpy
    rw [SortedU, List.pairwise_cons] at hx
    have hpa : prev = a := (memcmpo_eq_iff prev a).1 h2
    have hrec := ih hx.2 hy
      (fun z hz => by rw [hpa]; exact ele_of_elt (hx.1 z hz)) hpy
    simp only [mergeDedupGo, if_pos h1, if_pos h2]
    refine ⟨hrec.1, hrec.2.1, ?_⟩
    intro z
    rw [hrec.2.2 z]
    constructor
    · rintro ⟨h3, h4⟩
      rcases h3 with h3 | h3
      · exact ⟨Or.inl (List.mem_cons_of_mem a h3), h4⟩
      · exact ⟨Or.inr h3, h4⟩
    · rintro ⟨h3 | h3, h4⟩
      · rcases List.mem_cons.1 h3 with h5 | h5
        · exact absurd (hpa.trans h5.symm).symm h4
        · exact ⟨Or.inl h5, h4⟩
      · exact ⟨Or.inr h3, h4⟩
  | case7 prev a as b bs h1 h2 ih =>
    intro hx hy hpx hpy
    rw [SortedU, List.pairwise_cons] at hx
    have hpa : elt prev a :=
      elt_of_ele_of_ne (hpx a (List.mem_cons_self a as))
        (fun he => h2 ((memcmpo_eq_iff prev a).2 he))
    have hab : ele a b := h1
    have hrec := ih hx.2 hy (fun z hz => ele_of_elt (hx.1 z hz))
      (by
        intro z hz
        rcases List.mem_cons.1 hz with h' | h'
        · rw [h']; exact hab
        · rw [SortedU, List.pairwise_cons] at hy
          exact ele_trans hab (ele_of_elt (hy.1 z h')))
    have := mergeDedupGo_emit prev a as (b :: bs) hpa hrec
    simp only [mergeDedupGo, if_pos h1, if_neg h2]
    refine ⟨this.1, this.2.1, ?_⟩
    intro z
    rw [this.2.2 z]
    simp only [List.mem_cons]
    tauto
  | case8 prev a as b bs h1 h2 ih =>
    intro hx hy hpx hpy
    rw [SortedU, List.pairwise_cons] at hy
    have hpb : prev = b := (memcmpo_eq_iff prev b).1 h2
    have hba : elt b a := by
      rcases memcmpo_cases a b with hc | hc | hc
      · exact absurd (by simp [hc]) h1
      · exact absurd (by simp [hc]) h1
      · exact (memcmpo_lt_iff_gt b a).2 hc
    have hrec := ih hx hy.2 hpx
      (fun z hz => by rw [hpb]; exact ele_of_elt (hy.1 z hz))
    simp only [mergeDedupGo, if_neg h1, if_pos h2]
    refine ⟨hrec.1, hrec.2.1, ?_⟩
    intro z
    rw [hrec.2.2 z]
    constructor
    · rintro ⟨h3, h4⟩
      rcases h3 with h3 | h3
      · exact ⟨Or.inl h3, h4⟩
      · exact ⟨Or.inr (List.mem_cons_of_mem b h3), h4⟩
    · rintro ⟨h3 | h3, h4⟩
      · exact ⟨Or.inl h3, h4⟩
      · rcases List.mem_cons.1 h3 with h5 | h5
        · exact absurd (hpb.trans h5.symm).symm h4
        · exact ⟨Or.inr h5, h4⟩
  | case9 prev a as b bs h1 h2 ih =>
    intro hx hy hpx hpy
    rw [SortedU, List.pairwise_cons] at hy
    have hpb : elt prev b :=
      elt_of_ele_of_ne (hpy b (List.mem_cons_self b bs))
        (fun he => h2 ((memcmpo_eq_iff prev b).2 he))
    have hba : elt b a := by
      rcases memcmpo_cases a b with hc | hc | hc
      · exact absurd (by simp [hc]) h1
      · exact absurd (by simp [hc]) h1
      · exact (memcmpo_lt_iff_gt b a).2 hc
    have hrec := ih hx hy.2
      (by
        intro z hz
        rcases List.mem_cons.1 hz with h' | h'
        · rw [h']; exact ele_of_elt hba
        · rw [SortedU, List.pairwise_cons] at hx
          exact ele_of_elt (elt_trans hba (hx.1 z h')))
      (fun z hz => ele_of_elt (hy.1 z hz))
    have := mergeDedupGo_emit prev b (a :: as) bs hpb hrec
    simp only [mergeDedupGo, if_neg h1, if_neg h2]
    refine ⟨this.1, this.2.1, ?_⟩
    intro z
    rw [this.2.2 z]
    simp only [List.mem_cons]
    tauto

theorem mergeDedup_spec (xs ys : List Elem) (hx : SortedU xs) (hy : SortedU ys) :
    SortedU (mergeDedup xs ys) ∧ (∀ z, z ∈ mergeDedup xs ys ↔ z ∈ xs ∨ z ∈ ys) := by
  cases xs with
  | nil =>
    cases ys with
    | nil => simp [mergeDedup, SortedU]
    | cons b bs =>
      rw [SortedU, List.pairwise_cons] at hy
      have hrec := mergeDedupGo_spec b [] bs (by simp [SortedU]) hy.2
        (by simp) (fun z hz => ele_of_elt (hy.1 z hz))
      rw [mergeDedup]
      refine ⟨List.pairwise_cons.2 ⟨hrec.2.1, hrec.1⟩, ?_⟩
      intro z
      rw [List.mem_cons, hrec.2.2 z]
      simp only [List.not_mem_nil, false_or, List.mem_cons]
      by_cases hzb : z = b <;> tauto
  | cons a as =>
    cases ys with
    | nil =>
      rw [SortedU, List.pairwise_cons] at hx
      have hrec := mergeDedupGo_spec a as [] hx.2 (by simp [SortedU])
        (fun z hz => ele_of_elt (hx.1 z hz)) (by simp)
      rw [mergeDedup]
      refine ⟨List.pairwise_cons.2 ⟨hrec.2.1, hrec.1⟩, ?_⟩
      intro z
      rw [List.mem_cons, hrec.2.2 z]
      simp only [List.not_mem_nil, or_false, List.mem_cons]
      by_cases hza : z = a <;> tauto
    | cons b bs =>
      by_cases hc : memcmpo a b ≠ Ordering.gt
      · have hx' := hx
        rw [SortedU, List.pairwise_cons] at hx'
        rw [SortedU, List.pairwise_cons] at hy
        have hrec := mergeDedupGo_spec a as (b :: bs) hx'.2 (List.pairwise_cons.2 hy)
          (fun z hz => ele_of_elt (hx'.1 z hz))
          (by
            intro z hz
            rcases List.mem_cons.1 hz with h' | h'
            · rw [h']; exact hc
            · exact ele_trans hc (ele_of_elt (hy.1 z h')))
        rw [mergeDedup, if_pos hc]
        refine ⟨List.pairwise_cons.2 ⟨hrec.2.1, hrec.1⟩, ?_⟩
        intro z
        rw [List.mem_cons, hrec.2.2 z]
        simp only [List.mem_cons]
        by_cases hza : z = a <;> tauto
      · have hba : elt b a := by
          rcases memcmpo_cases a b with h' | h' | h'
          · exact absurd (by simp [h']) hc
          · exact absurd (by simp [h']) hc
          · exact (memcmpo_lt_iff_gt b a).2 h'
        rw [SortedU, List.pairwise_cons] at hy
        have hrec := mergeDedupGo_spec b (a :: as) bs hx hy.2
          (by
            intro z hz
            rcases List.mem_cons.1 hz with h' | h'
            · rw [h']; exact ele_of_elt hba
            · rw [SortedU, List.pairwise_cons] at hx
              exact ele_of_elt (elt_trans hba (hx.1 z h')))
          (fun z hz => ele_of_elt (hy.1 z hz))
        rw [mergeDedup, if_neg hc]
        refine ⟨List.pairwise_cons.2 ⟨hrec.2.1, hrec.1⟩, ?_⟩
        intro z
        rw [List.mem_cons, hrec.2.2 z]
        simp only [List.mem_cons]
        by_cases hzb : z = b <;> tauto

theorem nodup_length_le {l1 l2 : List Elem} (h : l1.Nodup) (hs : l1 ⊆ l2) :
    l1.length ≤ l2.length := by
  classical
  calc l1.length = l1.toFinset.card := (List.toFinset_card_of_nodup h).symm
  _ ≤ l2.toFinset.card :=
      Finset.card_le_card (fun x hx => List.mem_toFinset.2 (hs (List.mem_toFinset.1 hx)))
  _ ≤ l2.length := l2.toFinset_card_le

theorem compactCore_spec (e : element_set_t) (h : WF e) :
    SortedU (compactCore e).data ∧
    (∀ z, z ∈ (compactCore e).data ↔ z ∈ e.data) ∧
    (compactCore e).nsorted = (compactCore e).data.length ∧
    (compactCore e).nbytes = e.nbytes ∧
    (compactCore e).item_size = e.item_size ∧
    (compactCore e).typalign = e.typalign ∧
    (compactCore e).aggctx = e.aggctx := by
  obtain ⟨hs_pos, hns, hcap, hsorted, hlen⟩ := h
  unfold compactCore
  by_cases hlt : e.nsorted < e.data.length
  · rw [if_pos hlt]
    have hsplit : e.data.take e.nsorted ++ e.data.drop e.nsorted = e.data :=
      List.take_append_drop _ _
    have hmem_split : ∀ z : Elem,
        z ∈ e.data ↔ z ∈ e.data.take e.nsorted ∨ z ∈ e.data.drop e.nsorted := by
      intro z
      conv_lhs => rw [← hsplit]
      exact List.mem_append
    have hd := dedupAdj_spec (qsortModel (e.data.drop e.nsorted)) (sortedLe_qsortModel _)
    have hmemD : ∀ z, z ∈ dedupAdj (qsortModel (e.data.drop e.nsorted)) ↔
        z ∈ e.data.drop e.nsorted := by
      intro z
      rw [hd.2 z, mem_qsortModel]
    by_cases h0 : e.nsorted = 0
    · rw [if_pos h0]
      refine ⟨hd.1, ?_, rfl, rfl, rfl, rfl, rfl⟩
      intro z
      rw [hmemD z, h0, List.drop_zero]
    · rw [if_neg h0]
      have hm := mergeStep_spec (e.data.take e.nsorted) _ hsorted hd.1
      refine ⟨hm.1, ?_, rfl, rfl, rfl, rfl, rfl⟩
      intro z
      rw [hm.2 z, hmemD z, hmem_split z]
  · rw [if_neg hlt]
    have heq : e.nsorted = e.data.length := le_antisymm hns (not_lt.1 hlt)
    have htake : e.data.take e.nsorted = e.data := by
      rw [heq]
      exact List.take_length e.data
    exact ⟨by rw [← htake]; exact hsorted, fun z => Iff.rfl, heq, rfl, rfl, rfl, rfl⟩

theorem maybeGrow_fields (ns : Bool) (e : element_set_t) :
    (maybeGrow ns e).data = e.data ∧ (maybeGrow ns e).nsorted = e.nsorted ∧
    (maybeGrow ns e).item_size = e.item_size ∧
    (maybeGrow ns e).typalign = e.typalign ∧ (maybeGrow ns e).aggctx = e.aggctx ∧
    e.nbytes ≤ (maybeGrow ns e).nbytes := by
  unfold maybeGrow
  split
  · refine ⟨rfl, rfl, rfl, rfl, rfl, ?_⟩
    show e.nbytes ≤ growCap e.nbytes
    unfold growCap
    split <;> omega
  · exact ⟨rfl, rfl, rfl, rfl, rfl, le_refl _⟩

theorem compact_set_false (e : element_set_t) : compact_set e false = compactCore e := by
  unfold compact_set maybeGrow
  simp

theorem compact_set_spec (e : element_set_t) (ns : Bool) (h : WF e) :
    SortedU (compact_set e ns).data ∧
    (∀ z, z ∈ (compact_set e ns).data ↔ z ∈ e.data) ∧
    (compact_set e ns).nsorted = (compact_set e ns).data.length ∧
    e.nbytes ≤ (compact_set e ns).nbytes ∧
    (compact_set e ns).item_size = e.item_size ∧
    (compact_set e ns).typalign = e.typalign ∧
    (compact_set e ns).aggctx = e.aggctx ∧
    (compact_set e ns).data.length ≤ e.data.length ∧
    WF (compact_set e ns) := by
  have hc := compactCore_spec e h
  have hg := maybeGrow_fields ns (compactCore e)
  have hcs : compact_set e ns = maybeGrow ns (compactCore e) := rfl
  rw [hcs]
  have hdata : (maybeGrow ns (compactCore e)).data = (compactCore e).data := hg.1
  have hlen_le : (maybeGrow ns (compactCore e)).data.length ≤ e.data.length := by
    rw [hdata]
    refine nodup_length_le (SortedU.nodup hc.1) ?_
    intro z hz
    exact (hc.2.1 z).1 hz
  have hbytes : e.nbytes ≤ (maybeGrow ns (compactCore e)).nbytes := by
    calc e.nbytes = (compactCore e).nbytes := hc.2.2.2.1.symm
      _ ≤ (maybeGrow ns (compactCore e)).nbytes := hg.2.2.2.2.2
  have hsz : (maybeGrow ns (compactCore e)).item_size = e.item_size := by
    rw [hg.2.2.1]
    exact hc.2.2.2.2.1
  have hnsrt : (maybeGrow ns (compactCore e)).nsorted =
      (maybeGrow ns (compactCore e)).data.length := by
    rw [hdata, hg.2.1]
    exact hc.2.2.1
  obtain ⟨hs_pos, hns, hcap, hsorted, hlens⟩ := h
  refine ⟨by rw [hdata]; exact hc.1,
          by intro z; rw [hdata]; exact hc.2.1 z,
          hnsrt,
          hbytes,
          hsz,
          by rw [hg.2.2.2.1]; exact hc.2.2.2.2.2.1,
          by rw [hg.2.2.2.2.1]; exact hc.2.2.2.2.2.2,
          hlen_le, ?_⟩
  refine ⟨by rw [hsz]; exact hs_pos, by rw [hnsrt], ?_, ?_, ?_⟩
  · calc (maybeGrow ns (compactCore e)).data.length * (maybeGrow ns (compactCore e)).item_size
        ≤ e.data.length * e.item_size := by
          rw [hsz]
          exact Nat.mul_le_mul_right _ hlen_le
      _ ≤ e.nbytes := hcap
      _ ≤ (maybeGrow ns (compactCore e)).nbytes := hbytes
  · rw [hnsrt, List.take_length, hdata]
    exact hc.1
  · intro x hx
    rw [hsz]
    exact hlens x ((hc.2.1 x).1 (hdata ▸ hx))

theorem sum_map_length {l : List Elem} {s : Nat} (h : ∀ x ∈ l, x.length = s) :
    (l.map List.length).sum = l.length * s := by
  induction l with
  | nil => simp
  | cons x xs ih =>
    simp only [List.map_cons, List.sum_cons, List.length_cons]
    rw [h x (List.mem_cons_self x xs), ih (fun y hy => h y (List.mem_cons_of_mem x hy))]
    ring

/-- A fully compacted set (`nsorted = nall`) is untouched by
`compact_set(_, false)`: no sort, no merge, no growth. -/
theorem compact_set_false_of_full (e : element_set_t) (hfull : e.nsorted = e.data.length) :
    compact_set e false = e := by
  rw [compact_set_false]
  unfold compactCore
  rw [if_neg (by omega)]

theorem combineLoop_eq :
    ∀ (k : Nat) (xs ys : List Elem), xs.length + ys.length = k →
      combineLoop k none xs ys = mergeDedup xs ys ∧
      (∀ p, combineLoop k (some p) xs ys = mergeDedupGo p xs ys) := by
  intro k
  induction k with
  | zero =>
    intro xs ys hk
    have hx : xs = [] := List.eq_nil_of_length_eq_zero (by omega)
    have hy : ys = [] := List.eq_nil_of_length_eq_zero (by omega)
    subst hx
    subst hy
    exact ⟨by simp [combineLoop, mergeDedup], fun p => by simp [combineLoop, mergeDedupGo]⟩
  | succ n ih =>
    intro xs ys hk
    cases xs with
    | nil =>
      cases ys with
      | nil =>
        exact absurd hk (by simp)
      | cons b bs =>
        obtain ⟨ih1, ih2⟩ := ih [] bs (by
          simp only [List.length_cons, List.length_nil] at hk ⊢
          omega)
        constructor
        · simp only [combineLoop, mergeDedup]
          rw [ih2 b]
        · intro p
          simp only [combineLoop, mergeDedupGo]
          by_cases hc : memcmpo p b = Ordering.eq
          · rw [if_pos hc, if_pos hc, ih2 p]
          · rw [if_neg hc, if_neg hc, ih2 b]
    | cons a as =>
      cases ys with
      | nil =>
        obtain ⟨ih1, ih2⟩ := ih as [] (by
          simp only [List.length_cons, List.length_nil] at hk ⊢
          omega)
        constructor
        · simp only [combineLoop, mergeDedup]
          rw [ih2 a]
        · intro p
          simp only [combineLoop, mergeDedupGo]
          by_cases hc : memcmpo p a = Ordering.eq
          · rw [if_pos hc, if_pos hc, ih2 p]
          · rw [if_neg hc, if_neg hc, ih2 a]
      | cons b bs =>
        obtain ⟨ihA1, ihA2⟩ := ih as (b :: bs) (by
          simp only [List.length_cons] at hk ⊢
          omega)
        obtain ⟨ihB1, ihB2⟩ := ih (a :: as) bs (by
          simp only [List.length_cons] at hk ⊢
          omega)
        constructor
        · simp only [combineLoop, mergeDedup]
          by_cases hc : memcmpo a b ≠ Ordering.gt
          · rw [if_pos hc, if_pos hc, ihA2 a]
          · rw [if_neg hc, if_neg hc, ihB2 b]
        · intro p
          simp only [combineLoop, mergeDedupGo]
          by_cases hc : memcmpo a b ≠ Ordering.gt
          · rw [if_pos hc, if_pos hc]
            by_cases hpa : memcmpo p a = Ordering.eq
            · rw [if_pos hpa, if_pos hpa, ihA2 p]
            · rw [if_neg hpa, if_neg hpa, ihA2 a]
          · rw [if_neg hc, if_neg hc]
            by_cases hpb : memcmpo p b = Ordering.eq
            · rw [if_pos hpb, if_pos hpb, ihB2 p]
            · rw [if_neg hpb, if_neg hpb, ihB2 b]

theorem combineSupply_tight (g : List Elem) (c : element_set_t)
    (ht : Tight c) (hs : 0 < c.item_size) :
    combineSupply g c = c.data := by
  unfold combineSupply
  have hb : c.nbytes = c.data.length * c.item_size := ht
  rw [hb]
  have hceil : (c.data.length * c.item_size + c.item_size - 1) / c.item_size
      = c.data.length := by
    have h1 : c.data.length * c.item_size + c.item_size - 1
        = (c.item_size - 1) + c.item_size * c.data.length := by
      have hx : c.data.length * c.item_size = c.item_size * c.data.length := by ring
      omega
    rw [h1, Nat.add_mul_div_left _ _ hs, Nat.div_eq_of_lt (by omega)]
    omega
  rw [hceil]
  exact List.take_left c.data g

theorem sortedU_of_full (e : element_set_t) (h : WF e)
    (hf : e.nsorted = e.data.length) : SortedU e.data := by
  have hs := h.2.2.2.1
  rwa [hf, List.take_length] at hs

/-- On tight, fully compacted operands — the shape of every pair the
program feeds to the merge loop — the loop consumes exactly the stored
elements, independently of the slack contents. -/
theorem combineMergedData_tight (g1 g2 : List Elem) (e1 e2 : element_set_t)
    (h1 : WF e1) (h2 : WF e2)
    (hf1 : e1.nsorted = e1.data.length) (ht1 : Tight e1)
    (hf2 : e2.nsorted = e2.data.length) (ht2 : Tight e2) :
    combineMergedData g1 g2 e1 e2 = mergeDedup e1.data e2.data := by
  unfold combineMergedData
  rw [compact_set_false_of_full e1 hf1, compact_set_false_of_full e2 hf2,
      combineSupply_tight g1 e1 ht1 h1.1, combineSupply_tight g2 e2 ht2 h2.1]
  exact (combineLoop_eq (e1.data.length + e2.data.length) e1.data e2.data rfl).1

theorem combine2_spec (g1 g2 : List Elem) (e1 e2 : element_set_t)
    (h1 : WF e1) (h2 : WF e2) (hsz : e1.item_size = e2.item_size)
    (hf1 : e1.nsorted = e1.data.length) (ht1 : Tight e1)
    (hf2 : e2.nsorted = e2.data.length) (ht2 : Tight e2) :
    SortedU (combine2 g1 g2 e1 e2).1.data ∧
    (∀ z, z ∈ (combine2 g1 g2 e1 e2).1.data ↔ z ∈ e1.data ∨ z ∈ e2.data) ∧
    (combine2 g1 g2 e1 e2).1.item_size = e1.item_size ∧
    (combine2 g1 g2 e1 e2).1.nsorted = (combine2 g1 g2 e1 e2).1.data.length ∧
    (combine2 g1 g2 e1 e2).1.nbytes =
      (combine2 g1 g2 e1 e2).1.data.length * e1.item_size ∧
    (combine2 g1 g2 e1 e2).2 = e2 ∧
    WF (combine2 g1 g2 e1 e2).1 ∧ WF (combine2 g1 g2 e1 e2).2 ∧
    Tight (combine2 g1 g2 e1 e2).1 := by
  have hdata : (combine2 g1 g2 e1 e2).1.data = mergeDedup e1.data e2.data :=
    combineMergedData_tight g1 g2 e1 e2 h1 h2 hf1 ht1 hf2 ht2
  have hmd := mergeDedup_spec e1.data e2.data
    (sortedU_of_full e1 h1 hf1) (sortedU_of_full e2 h2 hf2)
  have hsorted : SortedU (combine2 g1 g2 e1 e2).1.data := by
    rw [hdata]
    exact hmd.1
  have hmem : ∀ z, z ∈ (combine2 g1 g2 e1 e2).1.data ↔ z ∈ e1.data ∨ z ∈ e2.data := by
    intro z
    rw [hdata]
    exact hmd.2 z
  have hlenall : ∀ x ∈ (combine2 g1 g2 e1 e2).1.data, x.length = e1.item_size := by
    intro x hx
    rcases (hmem x).1 hx with h | h
    · exact h1.2.2.2.2 x h
    · rw [hsz]
      exact h2.2.2.2.2 x h
  have hsum : ((combine2 g1 g2 e1 e2).1.data.map List.length).sum =
      (combine2 g1 g2 e1 e2).1.data.length * e1.item_size := sum_map_length hlenall
  have hsz1 : (combine2 g1 g2 e1 e2).1.item_size = e1.item_size := by
    show (compact_set e1 false).item_size = _
    rw [compact_set_false_of_full e1 hf1]
  have hbytes : (combine2 g1 g2 e1 e2).1.nbytes =
      (combine2 g1 g2 e1 e2).1.data.length * e1.item_size := hsum
  have hnsrt : (combine2 g1 g2 e1 e2).1.nsorted = (combine2 g1 g2 e1 e2).1.data.length := by
    show ((combineMergedData g1 g2 e1 e2).map List.length).sum /
        (compact_set e1 false).item_size = _
    rw [compact_set_false_of_full e1 hf1]
    rw [show ((combineMergedData g1 g2 e1 e2).map List.length).sum =
        (combine2 g1 g2 e1 e2).1.data.length * e1.item_size from hsum]
    exact Nat.mul_div_cancel _ h1.1
  have hsnd : (combine2 g1 g2 e1 e2).2 = e2 := by
    show compact_set e2 false = e2
    exact compact_set_false_of_full e2 hf2
  refine ⟨hsorted, hmem, hsz1, hnsrt, hbytes, hsnd, ?_, by rw [hsnd]; exact h2, ?_⟩
  · refine ⟨by rw [hsz1]; exact h1.1, le_of_eq hnsrt, ?_, ?_, ?_⟩
    · rw [hbytes, hsz1]
    · rw [hnsrt, List.take_length]
      exact hsorted
    · intro x hx
      rw [hsz1]
      exact hlenall x hx
  · show (combine2 g1 g2 e1 e2).1.nbytes = _
    rw [hbytes, hsz1]

/-- Two combines of tight fully compacted well-formed states of equal
element width produce, on the first component, the same sorted
duplicate-free union regardless of the argument order and of either
buffer's slack contents. -/
theorem combine2_comm (g1 g2 g3 g4 : List Elem) (e1 e2 : element_set_t)
    (h1 : WF e1) (h2 : WF e2) (hsz : e1.item_size = e2.item_size)
    (hf1 : e1.nsorted = e1.data.length) (ht1 : Tight e1)
    (hf2 : e2.nsorted = e2.data.length) (ht2 : Tight e2) :
    (combine2 g1 g2 e1 e2).1.data = (combine2 g3 g4 e2 e1).1.data := by
  have ha := combine2_spec g1 g2 e1 e2 h1 h2 hsz hf1 ht1 hf2 ht2
  have hb := combine2_spec g3 g4 e2 e1 h2 h1 hsz.symm hf2 ht2 hf1 ht1
  refine sortedU_eq_of_mem_iff _ _ ha.1 hb.1 ?_
  intro x
  rw [ha.2.1 x, hb.2.1 x]
  tauto

set_option maxHeartbeats 1000000 in
theorem combine2_assoc (g1 g2 g3 g4 g5 g6 : List Elem) (e1 e2 e3 : element_set_t)
    (h1 : WF e1) (h2 : WF e2) (h3 : WF e3)
    (hsz12 : e1.item_size = e2.item_size) (hsz23 : e2.item_size = e3.item_size)
    (hf1 : e1.nsorted = e1.data.length) (ht1 : Tight e1)
    (hf2 : e2.nsorted = e2.data.length) (ht2 : Tight e2)
    (hf3 : e3.nsorted = e3.data.length) (ht3 : Tight e3) :
    (combine2 g3 g4 (combine2 g1 g2 e1 e2).1 e3).1.data =
      (combine2 g5 g6 e1 (combine2 g1 g2 e2 e3).1).1.data := by
  have h12 := combine2_spec g1 g2 e1 e2 h1 h2 hsz12 hf1 ht1 hf2 ht2
  have h23 := combine2_spec g1 g2 e2 e3 h2 h3 hsz23 hf2 ht2 hf3 ht3
  have ht12 : Tight (combine2 g1 g2 e1 e2).1 := h12.2.2.2.2.2.2.2.2
  have ht23 : Tight (combine2 g1 g2 e2 e3).1 := h23.2.2.2.2.2.2.2.2
  have hL := combine2_spec g3 g4 (combine2 g1 g2 e1 e2).1 e3
    h12.2.2.2.2.2.2.1 h3 (by rw [h12.2.2.1, hsz12, hsz23])
    h12.2.2.2.1 ht12 hf3 ht3
  have hR := combine2_spec g5 g6 e1 (combine2 g1 g2 e2 e3).1
    h1 h23.2.2.2.2.2.2.1 (by rw [h23.2.2.1, hsz12])
    hf1 ht1 h23.2.2.2.1 ht23
  refine sortedU_eq_of_mem_iff _ _ hL.1 hR.1 ?_
  intro x
  rw [hL.2.1 x, hR.2.1 x, h12.2.1 x, h23.2.1 x]
  tauto

theorem chunkN_flatten :
    ∀ (l : List Elem) (s n : Nat), 0 < s → (∀ x ∈ l, x.length = s) →
      l.flatten.length ≤ n → chunkN s n l.flatten = l := by
  intro l
  induction l with
  | nil =>
    intro s n _ _ _
    cases n <;> simp [chunkN]
  | cons x xs ih =>
    intro s n hs hlen hn
    have hx : x.length = s := hlen x (List.mem_cons_self x xs)
    cases x with
    | nil =>
      rw [← hx] at hs
      simp at hs
    | cons b bs =>
      simp only [List.flatten_cons] at hn ⊢
      cases n with
      | zero =>
        exfalso
        simp only [List.length_append, List.length_cons] at hn
        omega
      | succ m =>
        rw [List.cons_append, chunkN, ← List.cons_append,
            List.take_left' hx, List.drop_left' hx]
        congr 1
        refine ih s m hs (fun y hy => hlen y (List.mem_cons_of_mem (b :: bs) hy)) ?_
        simp only [List.length_append, List.length_cons] at hn
        omega

/-- Deserializing the output of the serializer reconstructs the compacted
state: same `item_size`, `typalign` and `aggctx`, the same element list,
`nsorted = nall`, and a buffer of exactly `nall * item_size` bytes. -/
theorem deserial_serial (e : element_set_t) (h : WF e) (hne : 0 < e.data.length) :
    lrtm_count_distinct_deserial true (lrtm_count_distinct_serial e).1 =
      Except.ok
        { item_size := e.item_size,
          nsorted := (compact_set e false).data.length,
          nbytes := (compact_set e false).data.length * e.item_size,
          typalign := e.typalign, aggctx := e.aggctx,
          data := (compact_set e false).data } := by
  obtain ⟨hsort, hmem, hnsrt, hble, hsz, hta, hagg, hlenle, hwf⟩ := compact_set_spec e false h
  obtain ⟨hcpos, _, _, _, hlens⟩ := hwf
  have hflat : (compact_set e false).data.flatten.length =
      (compact_set e false).data.length * (compact_set e false).item_size := by
    rw [List.length_flatten]
    exact sum_map_length hlens
  have hcne : 0 < (compact_set e false).data.length := by
    have hne' : e.data ≠ [] := List.length_pos.1 hne
    obtain ⟨x, hx⟩ := List.exists_mem_of_ne_nil e.data hne'
    exact List.length_pos.2 (List.ne_nil_of_mem ((hmem x).2 hx))
  have hvalid : 0 < (compact_set e false).data.flatten.length ∧
      0 < (compact_set e false).data.length ∧
      (compact_set e false).data.length = (compact_set e false).nsorted ∧
      (compact_set e false).data.flatten.length =
        (compact_set e false).data.length * (compact_set e false).item_size := by
    refine ⟨?_, hcne, hnsrt.symm, hflat⟩
    rw [hflat]
    exact Nat.mul_pos hcne hcpos
  show (if true ∧ ¬_ then _ else _) = _
  rw [if_neg (by simp only [true_and, not_not]; exact hvalid)]
  have hdata : chunkElems (compact_set e false).item_size
      ((compact_set e false).data.flatten.take
        ((compact_set e false).data.length * (compact_set e false).item_size)) =
      (compact_set e false).data := by
    rw [← hflat, List.take_length]
    exact chunkN_flatten (compact_set e false).data (compact_set e false).item_size
      (compact_set e false).data.flatten.length hcpos hlens (le_refl _)
  refine congrArg Except.ok ?_
  rw [element_set_t.mk.injEq]
  refine ⟨hsz, hnsrt, ?_, hta, hagg, hdata⟩
  show (compact_set e false).data.length * (compact_set e false).item_size = _
  rw [hsz]

theorem capInv_init (s ta cx : Nat) (hs : ByValWidth s) : CapInv (init_set s ta cx) := by
  rcases hs with h | h | h | h <;> subst h <;>
    exact ⟨by norm_num [init_set, ARRAY_INIT_SIZE], Or.inl (by norm_num [init_set, ARRAY_INIT_SIZE])⟩

theorem capInv_growCap {s B : Nat} (hs : s ≤ 8) (hle : s ≤ B)
    (hd : s ∣ B ∨ 5 * s ≤ B) : s ≤ growCap B ∧ (s ∣ growCap B ∨ 5 * s ≤ growCap B) := by
  unfold growCap ALLOCSET_SEPARATE_THRESHOLD
  split
  · refine ⟨by omega, ?_⟩
    rcases hd with h | h
    · exact Or.inl (Dvd.dvd.mul_left h 2)
    · exact Or.inr (by omega)
  · rename_i hbig
    have hB : 6554 ≤ B := by omega
    refine ⟨by omega, Or.inr (by omega)⟩

theorem capInv_compact_set (e : element_set_t) (ns : Bool)
    (h : WF e) (hcap : CapInv e) (hs : e.item_size ≤ 8) :
    CapInv (compact_set e ns) := by
  have hc := compactCore_spec e h
  have hsz : (compact_set e ns).item_size = e.item_size := (compact_set_spec e ns h).2.2.2.2.1
  have hnb : e.item_size ≤ (compact_set e ns).nbytes ∧
      (e.item_size ∣ (compact_set e ns).nbytes ∨
        5 * e.item_size ≤ (compact_set e ns).nbytes) := by
    have hnbeq : (compact_set e ns).nbytes = (maybeGrow ns (compactCore e)).nbytes := rfl
    rw [hnbeq]
    unfold maybeGrow
    split
    · exact capInv_growCap hs (by rw [hc.2.2.2.1]; exact hcap.1)
        (by rw [hc.2.2.2.1]; exact hcap.2)
    · show e.item_size ≤ (compactCore e).nbytes ∧ _
      rw [hc.2.2.2.1]
      exact hcap
  unfold CapInv
  rw [hsz]
  exact hnb

/-- After a compaction that requests space, on a state with the reachable
capacity shape, there is room to store one more element: either the growth
step fired, or the post-compaction free space is at least 20% of the buffer,
which under `CapInv` is at least one element's worth of bytes. -/
theorem compact_true_space (e : element_set_t) (h : WF e) (hcap : CapInv e)
    (hs : e.item_size ≤ 8) :
    (compact_set e true).item_size * ((compact_set e true).data.length + 1) ≤
      (compact_set e true).nbytes := by
  have hc := compactCore_spec e h
  have hn'le : (compactCore e).data.length * e.item_size ≤ e.nbytes := by
    calc (compactCore e).data.length * e.item_size
        ≤ e.data.length * e.item_size := by
          refine Nat.mul_le_mul_right _ (nodup_length_le (SortedU.nodup hc.1) ?_)
          intro z hz
          exact (hc.2.1 z).1 hz
      _ ≤ e.nbytes := h.2.2.1
  have hszc : (compact_set e true).item_size = e.item_size :=
    (compact_set_spec e true h).2.2.2.2.1
  have hdc : (compact_set e true).data = (compactCore e).data :=
    (maybeGrow_fields true (compactCore e)).1
  rw [hszc, hdc]
  have hnbeq : (compact_set e true).nbytes = (maybeGrow true (compactCore e)).nbytes := rfl
  rw [hnbeq]
  have hmul : e.item_size * ((compactCore e).data.length + 1)
      = (compactCore e).data.length * e.item_size + e.item_size := by ring
  have h1 : e.item_size ≤ e.nbytes := hcap.1
  have hspos : 0 < e.item_size := h.1
  unfold maybeGrow
  split
  · show e.item_size * ((compactCore e).data.length + 1) ≤ growCap (compactCore e).nbytes
    rw [hc.2.2.2.1]
    unfold growCap ALLOCSET_SEPARATE_THRESHOLD
    split
    · omega
    · omega
  · rename_i hnogrow
    show e.item_size * ((compactCore e).data.length + 1) ≤ (compactCore e).nbytes
    rw [hc.2.2.2.1]
    rw [hc.2.2.2.1, hc.2.2.2.2.1] at hnogrow
    have hfree : e.nbytes ≤
        5 * (e.nbytes - (compactCore e).data.length * e.item_size) := by
      rcases Nat.lt_or_ge
        (5 * (e.nbytes - (compactCore e).data.length * e.item_size)) e.nbytes with hlt | hge
      · exact absurd ⟨rfl, hlt⟩ hnogrow
      · exact hge
    rcases hcap.2 with hdvd | hbig
    · have hdvd2 : e.item_size ∣ e.nbytes - (compactCore e).data.length * e.item_size :=
        Nat.dvd_sub' hdvd (Dvd.dvd.mul_left dvd_rfl _)
      have hdiffpos : 0 < e.nbytes - (compactCore e).data.length * e.item_size := by omega
      have hstep : e.item_size ≤ e.nbytes - (compactCore e).data.length * e.item_size :=
        Nat.le_of_dvd hdiffpos hdvd2
      omega
    · omega

theorem capInv_add_element (e : element_set_t) (v : Elem)
    (h : WF e) (hcap : CapInv e) (hs : e.item_size ≤ 8) :
    CapInv (add_element e v) := by
  unfold add_element
  split
  · exact capInv_compact_set e true h hcap hs
  · exact hcap

theorem add_element_wf (e : element_set_t) (v : Elem)
    (h : WF e) (hcap : CapInv e) (hs : e.item_size ≤ 8)
    (hv : v.length = e.item_size) :
    WF (add_element e v) ∧
      (∀ z, z ∈ (add_element e v).data ↔ z ∈ e.data ∨ z = v) ∧
      (add_element e v).item_size = e.item_size := by
  have key : ∀ e1 : element_set_t, WF e1 →
      e1.item_size * (e1.data.length + 1) ≤ e1.nbytes →
      (∀ z, z ∈ e1.data ↔ z ∈ e.data) → e1.item_size = e.item_size →
      WF { e1 with data := e1.data ++ [v] } ∧
        (∀ z, z ∈ ({ e1 with data := e1.data ++ [v] } : element_set_t).data ↔
          z ∈ e.data ∨ z = v) ∧
        ({ e1 with data := e1.data ++ [v] } : element_set_t).item_size = e.item_size := by
    intro e1 h1 hroom hmem hsz
    obtain ⟨hpos, hns, hcap1, hsorted, hlens⟩ := h1
    refine ⟨⟨hpos, ?_, ?_, ?_, ?_⟩, ?_, hsz⟩
    · simp only [List.length_append, List.length_cons, List.length_nil]
      omega
    · simp only [List.length_append, List.length_cons, List.length_nil]
      calc (e1.data.length + 1) * e1.item_size = e1.item_size * (e1.data.length + 1) :=
            Nat.mul_comm _ _
        _ ≤ e1.nbytes := hroom
    · rw [List.take_append_of_le_length hns]
      exact hsorted
    · intro x hx
      rcases List.mem_append.1 hx with h' | h'
      · exact hlens x h'
      · rw [List.mem_singleton.1 h', hv, hsz]
    · intro z
      simp only [List.mem_append, List.mem_singleton]
      rw [hmem z]
  unfold add_element
  split
  · rename_i htrig
    have hsp := compact_set_spec e true h
    refine key (compact_set e true) hsp.2.2.2.2.2.2.2.2 ?_ hsp.2.1 hsp.2.2.2.2.1
    rw [hsp.2.2.2.2.1]
    have := compact_true_space e h hcap hs
    rw [hsp.2.2.2.2.1] at this
    exact this
  · rename_i htrig
    exact key e h (by omega) (fun z => Iff.rfl) rfl

theorem byValWidth_le8 {s : Nat} (h : ByValWidth s) : s ≤ 8 := by
  rcases h with h | h | h | h <;> omega

theorem add_element_mem (e : element_set_t) (v : Elem) (h : WF e) :
    ∀ z, z ∈ (add_element e v).data ↔ z ∈ e.data ∨ z = v := by
  unfold add_element
  split
  · intro z
    simp only [List.mem_append, List.mem_singleton]
    rw [(compact_set_spec e true h).2.1 z]
  · intro z
    simp only [List.mem_append, List.mem_singleton]

theorem elemsLoop_acc (meta : TypMeta) (cx : Nat) (st : Option element_set_t)
    (e : element_set_t) :
    ∀ items, elemsLoop meta cx st (some e) items =
      Except.ok (some (List.foldl add_element e (items.filterMap id))) := by
  intro items
  induction items generalizing e with
  | nil => rfl
  | cons it rest ih =>
    cases it with
    | none =>
      show elemsLoop meta cx st (some e) rest = _
      rw [ih e]
      rfl
    | some v =>
      show elemsLoop meta cx st (some (add_element e v)) rest = _
      rw [ih (add_element e v)]
      rfl

theorem elemsLoop_start (meta : TypMeta) (cx : Nat) (e : element_set_t) :
    ∀ items, elemsLoop meta cx (some e) none items =
      (if items.all Option.isNone then Except.ok none
       else Except.ok (some (List.foldl add_element e (items.filterMap id)))) := by
  intro items
  induction items with
  | nil => rfl
  | cons it rest ih =>
    cases it with
    | none =>
      show elemsLoop meta cx (some e) none rest = _
      rw [ih]
      simp [List.all_cons, Option.isNone]
    | some v =>
      show elemsLoop meta cx (some e) (some (add_element e v)) rest = _
      rw [elemsLoop_acc]
      simp [List.all_cons, Option.isNone]

/-- C1 counterexample: on an operand whose buffer has slack capacity
(`nall * item_size < nbytes`) the merge loop's availability tests
(`ptr < data + nbytes`) run past the stored elements, so the claimed
sorted duplicate-free union fails: here `cG` stores one element `[3]` in a
32-byte buffer whose slack holds the byte `0`, and combining the
single-element state `cE = {[9]}` with it yields `[[3], [0]]` — an
unsorted sequence that has absorbed garbage and lost the element `[9]`. -/
theorem C1_counterexample :
    WF cE ∧ WF cG ∧ cE.item_size = cG.item_size ∧
    cE.nsorted = cE.data.length ∧ cG.nsorted = cG.data.length ∧
    (combine2 [] [[0]] cE cG).1.data = [[3], [0]] ∧
    ¬ SortedU (combine2 [] [[0]] cE cG).1.data ∧
    [9] ∈ cE.data ∧ [9] ∉ (combine2 [] [[0]] cE cG).1.data := by
  decide

/-- C1 (amended): Combine is commutative and associative on tight, fully
compacted well-formed states of equal `item_size` — the shape of every
state the combine function actually receives (deserialized states and
previous combine outputs all have `nsorted = nall` and
`nbytes = nall * item_size`).  On that domain, whatever the slack buffers
hold, combining in either order yields the same element sequence and the
same count, any grouping of three states yields the same sequence, and the
result is the strictly sorted duplicate-free union of the two states'
contents — while `add_element` only ever adds its argument to the
contents, so the union is exactly the set of elements ever appended. -/
theorem C1_combine_comm_assoc_union (g1 g2 g3 g4 g5 g6 : List Elem)
    (e1 e2 e3 : element_set_t)
    (h1 : WF e1) (h2 : WF e2) (h3 : WF e3)
    (hsz12 : e1.item_size = e2.item_size) (hsz23 : e2.item_size = e3.item_size)
    (hf1 : e1.nsorted = e1.data.length) (ht1 : Tight e1)
    (hf2 : e2.nsorted = e2.data.length) (ht2 : Tight e2)
    (hf3 : e3.nsorted = e3.data.length) (ht3 : Tight e3) :
    ((combine2 g1 g2 e1 e2).1.data = (combine2 g3 g4 e2 e1).1.data ∧
      (combine2 g1 g2 e1 e2).1.data.length =
        (combine2 g3 g4 e2 e1).1.data.length) ∧
    (combine2 g3 g4 (combine2 g1 g2 e1 e2).1 e3).1.data =
      (combine2 g5 g6 e1 (combine2 g1 g2 e2 e3).1).1.data ∧
    (SortedU (combine2 g1 g2 e1 e2).1.data ∧
      (∀ z, z ∈ (combine2 g1 g2 e1 e2).1.data ↔ z ∈ e1.data ∨ z ∈ e2.data)) ∧
    (∀ v z, z ∈ (add_element e1 v).data ↔ z ∈ e1.data ∨ z = v) := by
  have hcomm := combine2_comm g1 g2 g3 g4 e1 e2 h1 h2 hsz12 hf1 ht1 hf2 ht2
  have hspec := combine2_spec g1 g2 e1 e2 h1 h2 hsz12 hf1 ht1 hf2 ht2
  exact ⟨⟨hcomm, by rw [hcomm]⟩,
         combine2_assoc g1 g2 g3 g4 g5 g6 e1 e2 e3 h1 h2 h3 hsz12 hsz23
           hf1 ht1 hf2 ht2 hf3 ht3,
         ⟨hspec.1, hspec.2.1⟩,
         fun v => add_element_mem e1 v h1⟩

theorem C1_witness :
    (WF cE ∧ Tight cE ∧ cE.nsorted = cE.data.length) ∧
    (((combine2 [] [] cE cD).1.data = (combine2 [] [] cD cE).1.data ∧
      (combine2 [] [] cE cD).1.data.length =
        (combine2 [] [] cD cE).1.data.length) ∧
    (combine2 [] [] (combine2 [] [] cE cD).1 cH).1.data =
      (combine2 [] [] cE (combine2 [] [] cD cH).1).1.data ∧
    (SortedU (combine2 [] [] cE cD).1.data ∧
      (∀ z, z ∈ (combine2 [] [] cE cD).1.data ↔ z ∈ cE.data ∨ z ∈ cD.data)) ∧
    (∀ v z, z ∈ (add_element cE v).data ↔ z ∈ cE.data ∨ z = v)) :=
  ⟨by decide,
   C1_combine_comm_assoc_union [] [] [] [] [] [] cE cD cH
     (by decide) (by decide) (by decide) rfl rfl
     (by decide) (by decide) (by decide) (by decide) (by decide) (by decide)⟩

/-- C2 counterexample: the final function applied to an absent state
returns SQL `NULL` (absent), not the integer 0 as the claim states:
`lrtm_count_distinct` executes `PG_RETURN_NULL()` when `PG_ARGISNULL(0)`. -/
theorem C2_counterexample :
    (lrtm_count_distinct none).map Prod.fst ≠ some 0 := by
  decide

/-- C2 (amended): on an absent state the final function returns `NULL`
(absent), not 0; on a present state it first runs `compact_set` with
`need_space = false` and returns the resulting `nall`, which equals the
number of distinct elements stored. -/
theorem C2_count_final (e : element_set_t) (h : WF e) :
    lrtm_count_distinct none = none ∧
    (∃ l, SortedU l ∧ (∀ z, z ∈ l ↔ z ∈ e.data) ∧
      lrtm_count_distinct (some e) = some (l.length, compact_set e false)) := by
  have hc := compact_set_spec e false h
  exact ⟨rfl, ⟨(compact_set e false).data, hc.1, hc.2.1, rfl⟩⟩

theorem C2_witness :
    lrtm_count_distinct none = none ∧
    (∃ l, SortedU l ∧ (∀ z, z ∈ l ↔ z ∈ cB.data) ∧
      lrtm_count_distinct (some cB) = some (l.length, compact_set cB false)) :=
  C2_count_final cB (by decide)

/-- C3 counterexample: the serialized header is not only the four `u32`
fields: two states that agree on `item_size`, `sorted_count`, `total_count`,
`capacity_bytes` and on the stored elements, but differ in the cached
`typalign` byte, serialize to different payloads, because the `memcpy` of
`offsetof(element_set_t, data)` bytes also copies `typalign` (and the
`aggctx` pointer).  Under the claim the two payloads would be equal. -/
theorem C3_counterexample :
    cT1.item_size = cT2.item_size ∧ cT1.nsorted = cT2.nsorted ∧
    cT1.nall = cT2.nall ∧ cT1.nbytes = cT2.nbytes ∧ cT1.data = cT2.data ∧
    (lrtm_count_distinct_serial cT1).1 ≠ (lrtm_count_distinct_serial cT2).1 := by
  refine ⟨rfl, rfl, rfl, rfl, rfl, ?_⟩
  have h1 : compact_set cT1 false = cT1 := compact_set_false_of_full cT1 rfl
  have h2 : compact_set cT2 false = cT2 := compact_set_false_of_full cT2 rfl
  intro hcon
  have : (lrtm_count_distinct_serial cT1).1.s_typalign =
      (lrtm_count_distinct_serial cT2).1.s_typalign := by rw [hcon]
  rw [show (lrtm_count_distinct_serial cT1).1.s_typalign =
    (compact_set cT1 false).typalign from rfl, h1] at this
  rw [show (lrtm_count_distinct_serial cT2).1.s_typalign =
    (compact_set cT2 false).typalign from rfl, h2] at this
  exact absurd this (by decide)

/-- C3 (amended): for a fully compacted non-empty well-formed set, the
serializer emits the struct header — the four `u32` counter fields plus the
cached `typalign` and the raw memory-context pointer, 32 bytes on LP64 —
followed by exactly `total_count * item_size` bytes of element data in
strictly ascending byte order. -/
theorem C3_serial_layout (e : element_set_t) (h : WF e)
    (hfull : e.nsorted = e.data.length) (_hne : 0 < e.data.length) :
    SortedU e.data ∧
    (lrtm_count_distinct_serial e).1.sdata = e.data.flatten ∧
    (lrtm_count_distinct_serial e).1.s_nall = e.data.length ∧
    (lrtm_count_distinct_serial e).1.sdata.length = e.data.length * e.item_size ∧
    (lrtm_count_distinct_serial e).1.payloadLen =
      HEADER_BYTES + e.data.length * e.item_size ∧
    (lrtm_count_distinct_serial e).1.s_item_size = e.item_size ∧
    (lrtm_count_distinct_serial e).1.s_nsorted = e.nsorted ∧
    (lrtm_count_distinct_serial e).1.s_nbytes = e.nbytes ∧
    (lrtm_count_distinct_serial e).1.s_typalign = e.typalign ∧
    (lrtm_count_distinct_serial e).1.s_aggctx = e.aggctx := by
  have hid : compact_set e false = e := compact_set_false_of_full e hfull
  have hsorted : SortedU e.data := by
    have := h.2.2.2.1
    rw [hfull, List.take_length] at this
    exact this
  have hflatlen : e.data.flatten.length = e.data.length * e.item_size := by
    rw [List.length_flatten]
    exact sum_map_length h.2.2.2.2
  refine ⟨hsorted, ?_, ?_, ?_, ?_, ?_, ?_, ?_, ?_, ?_⟩
  · show (compact_set e false).data.flatten = e.data.flatten
    rw [hid]
  · show (compact_set e false).data.length = e.data.length
    rw [hid]
  · show (compact_set e false).data.flatten.length = _
    rw [hid, hflatlen]
  · show HEADER_BYTES + (compact_set e false).data.flatten.length = _
    rw [hid, hflatlen]
  · show (compact_set e false).item_size = e.item_size
    rw [hid]
  · show (compact_set e false).nsorted = e.nsorted
    rw [hid]
  · show (compact_set e false).nbytes = e.nbytes
    rw [hid]
  · show (compact_set e false).typalign = e.typalign
    rw [hid]
  · show (compact_set e false).aggctx = e.aggctx
    rw [hid]

theorem C3_witness :
    SortedU cT1.data ∧
    (lrtm_count_distinct_serial cT1).1.sdata = cT1.data.flatten ∧
    (lrtm_count_distinct_serial cT1).1.s_nall = cT1.data.length ∧
    (lrtm_count_distinct_serial cT1).1.sdata.length = cT1.data.length * cT1.item_size ∧
    (lrtm_count_distinct_serial cT1).1.payloadLen =
      HEADER_BYTES + cT1.data.length * cT1.item_size ∧
    (lrtm_count_distinct_serial cT1).1.s_item_size = cT1.item_size ∧
    (lrtm_count_distinct_serial cT1).1.s_nsorted = cT1.nsorted ∧
    (lrtm_count_distinct_serial cT1).1.s_nbytes = cT1.nbytes ∧
    (lrtm_count_distinct_serial cT1).1.s_typalign = cT1.typalign ∧
    (lrtm_count_distinct_serial cT1).1.s_aggctx = cT1.aggctx :=
  C3_serial_layout cT1 (by decide) rfl (by decide)

/-- C4 counterexample: in a build without assertion checking, a payload
whose length is not `header + nall * item_size` is not rejected: the
deserializer silently builds a state from the first `nall * item_size` data
bytes, dropping the rest. -/
theorem C4_counterexample :
    pBad.sdata.length ≠ pBad.s_nall * pBad.s_item_size ∧
    lrtm_count_distinct_deserial false pBad =
      Except.ok { item_size := 1, nsorted := 1, nbytes := 1, typalign := 0,
                  aggctx := 0, data := [[5]] } := by
  constructor
  · decide
  · rfl

/-- C4 (amended): the length/shape validation of `Deserialize` is performed
only by `Assert`: in a build with assertion checking, a payload whose
length differs from `header + nall * item_size`, or whose `sorted_count`
differs from `total_count`, is rejected; in a build without assertion
checking the checks are compiled out and a state is constructed without any
validation. -/
theorem C4_deserial_checks (p : SerializedState)
    (hbad : p.payloadLen ≠ HEADER_BYTES + p.s_nall * p.s_item_size ∨
      p.s_nsorted ≠ p.s_nall) :
    lrtm_count_distinct_deserial true p = Except.error "invalid serialized state" ∧
    ∃ e, lrtm_count_distinct_deserial false p = Except.ok e := by
  constructor
  · show (if true ∧ ¬_ then _ else _) = _
    rw [if_pos]
    refine ⟨rfl, ?_⟩
    intro hvalid
    rcases hbad with hlen | hnsrt
    · apply hlen
      show HEADER_BYTES + p.sdata.length = _
      rw [hvalid.2.2.2]
    · exact hnsrt hvalid.2.2.1.symm
  · refine ⟨⟨p.s_item_size, p.s_nsorted, p.s_nall * p.s_item_size, p.s_typalign,
        p.s_aggctx, chunkElems p.s_item_size (p.sdata.take (p.s_nall * p.s_item_size))⟩, ?_⟩
    show (if false ∧ _ then _ else _) = _
    rw [if_neg (by simp)]

theorem C4_witness :
    (pBad.payloadLen ≠ HEADER_BYTES + pBad.s_nall * pBad.s_item_size ∨
      pBad.s_nsorted ≠ pBad.s_nall) ∧
    (lrtm_count_distinct_deserial true pBad = Except.error "invalid serialized state" ∧
      ∃ e, lrtm_count_distinct_deserial false pBad = Except.ok e) :=
  ⟨Or.inl (by decide), C4_deserial_checks pBad (Or.inl (by decide))⟩

/-- C5 counterexample: the array append variant called with an existing
(present) state and an array whose elements are all null returns `absent`,
not the existing state: the local `eset` is never seeded from the state
parameter because the loop body is only reached for non-null items, and the
function returns `NULL` when `eset` is still `NULL` after the loop. -/
theorem C5_counterexample :
    lrtm_count_distinct_elements_append mOk 0 (some cS) (some [none, none]) =
      Except.ok none ∧
    (Except.ok none : Except String (Option element_set_t)) ≠ Except.ok (some cS) := by
  constructor
  · rfl
  · intro hcon
    injection hcon with h
    exact Option.noConfusion h

/-- C5 (amended): the array variant applies `add_element` once per non-null
array element in order, but with a present state and a present array it
returns `absent` exactly when every element of the array is null — in that
case the existing state is discarded rather than returned. -/
theorem C5_elements_append (meta : TypMeta) (cx : Nat) (e : element_set_t)
    (items : List (Option Elem)) :
    (items.all Option.isNone = true →
      lrtm_count_distinct_elements_append meta cx (some e) (some items) =
        Except.ok none) ∧
    (items.all Option.isNone = false →
      lrtm_count_distinct_elements_append meta cx (some e) (some items) =
        Except.ok (some (List.foldl add_element e (items.filterMap id)))) := by
  have h := elemsLoop_start meta cx e items
  constructor
  · intro hall
    show elemsLoop meta cx (some e) none items = _
    rw [h, if_pos hall]
  · intro hnall
    show elemsLoop meta cx (some e) none items = _
    rw [h, if_neg (by simp [hnall])]

theorem C5_witness :
    lrtm_count_distinct_elements_append mOk 0 (some cS) (some [none, none]) =
      Except.ok none ∧
    lrtm_count_distinct_elements_append mOk 0 (some cS) (some [some [9, 0, 0, 0]]) =
      Except.ok (some (List.foldl add_element cS ([some [9, 0, 0, 0]].filterMap id))) :=
  ⟨(C5_elements_append mOk 0 cS [none, none]).1 (by decide),
   (C5_elements_append mOk 0 cS [some [9, 0, 0, 0]]).2 (by decide)⟩

/-- C6: for a fully compacted non-empty well-formed set, deserializing the
serialized payload succeeds and yields a state with the same element
sequence, the same `Count`, and a buffer allocated at exactly
`total_count * item_size` bytes. -/
theorem C6_roundtrip (e : element_set_t) (h : WF e)
    (hfull : e.nsorted = e.data.length) (hne : 0 < e.data.length) :
    ∃ e', lrtm_count_distinct_deserial true (lrtm_count_distinct_serial e).1 =
        Except.ok e' ∧
      e'.data = e.data ∧
      e'.nbytes = e.data.length * e.item_size ∧
      (lrtm_count_distinct (some e')).map Prod.fst =
        (lrtm_count_distinct (some e)).map Prod.fst := by
  have hid : compact_set e false = e := compact_set_false_of_full e hfull
  have hds := deserial_serial e h hne
  rw [hid] at hds
  have hcount : ∀ x : element_set_t, x.nsorted = x.data.length →
      (lrtm_count_distinct (some x)).map Prod.fst = some x.data.length := by
    intro x hx
    show (some ((compact_set x false).data.length, compact_set x false)).map Prod.fst = _
    rw [compact_set_false_of_full x hx]
    rfl
  refine ⟨_, hds, rfl, rfl, ?_⟩
  rw [hcount _ rfl, hcount e hfull]

theorem C6_witness :
    ∃ e', lrtm_count_distinct_deserial true (lrtm_count_distinct_serial cT1).1 =
        Except.ok e' ∧
      e'.data = cT1.data ∧
      e'.nbytes = cT1.data.length * cT1.item_size ∧
      (lrtm_count_distinct (some e')).map Prod.fst =
        (lrtm_count_distinct (some cT1)).map Prod.fst :=
  C6_roundtrip cT1 (by decide) rfl (by decide)

/-- C7: every public operation preserves the representation invariants:
`nsorted <= nall`, `nall * item_size <= nbytes`, and a strictly increasing
duplicate-free sorted run (plus positive width and correct element widths).
`add_element` additionally needs the reachable capacity shape `CapInv` and a
by-value element width, which every reachable state has (see C10); combine
is stated on tight fully compacted operands — the shape of every state the
combine function receives — and holds for any slack-buffer contents. -/
theorem C7_invariants :
    (∀ e v, WF e → CapInv e → ByValWidth e.item_size → v.length = e.item_size →
      WF (add_element e v)) ∧
    (∀ e ns, WF e → WF (compact_set e ns)) ∧
    (∀ g1 g2 e1 e2, WF e1 → WF e2 → e1.item_size = e2.item_size →
      e1.nsorted = e1.data.length → Tight e1 →
      e2.nsorted = e2.data.length → Tight e2 →
      WF (combine2 g1 g2 e1 e2).1 ∧ WF (combine2 g1 g2 e1 e2).2) ∧
    (∀ e, WF e → WF (lrtm_count_distinct_serial e).2) ∧
    (∀ e, WF e → 0 < e.data.length →
      ∃ e', lrtm_count_distinct_deserial true (lrtm_count_distinct_serial e).1 =
        Except.ok e' ∧ WF e') ∧
    (∀ e n c, WF e → lrtm_count_distinct (some e) = some (n, c) → WF c) := by
  refine ⟨?_, ?_, ?_, ?_, ?_, ?_⟩
  · intro e v h hcap hw hv
    exact (add_element_wf e v h hcap (byValWidth_le8 hw) hv).1
  · intro e ns h
    exact (compact_set_spec e ns h).2.2.2.2.2.2.2.2
  · intro g1 g2 e1 e2 h1 h2 hsz hf1 ht1 hf2 ht2
    have hs := combine2_spec g1 g2 e1 e2 h1 h2 hsz hf1 ht1 hf2 ht2
    exact ⟨hs.2.2.2.2.2.2.1, hs.2.2.2.2.2.2.2.1⟩
  · intro e h
    exact (compact_set_spec e false h).2.2.2.2.2.2.2.2
  · intro e h hne
    refine ⟨_, deserial_serial e h hne, ?_⟩
    have hc := compact_set_spec e false h
    obtain ⟨hcpos, hcns, hccap, hcsort, hclens⟩ := hc.2.2.2.2.2.2.2.2
    refine ⟨h.1, le_refl _, le_refl _, ?_, ?_⟩
    · show SortedU ((compact_set e false).data.take (compact_set e false).data.length)
      rw [List.take_length]
      exact hc.1
    · intro x hx
      show x.length = e.item_size
      rw [← hc.2.2.2.2.1]
      exact hclens x hx
  · intro e n c h hcall
    have hstep : lrtm_count_distinct (some e) =
        some ((compact_set e false).data.length, compact_set e false) := rfl
    rw [hstep] at hcall
    injection hcall with h1
    have h2 : compact_set e false = c := congrArg Prod.snd h1
    rw [← h2]
    exact (compact_set_spec e false h).2.2.2.2.2.2.2.2

theorem C7_witness :
    WF (add_element cA [9]) ∧
    WF (compact_set cB true) ∧
    (WF (combine2 [] [] cE cD).1 ∧ WF (combine2 [] [] cE cD).2) ∧
    WF (lrtm_count_distinct_serial cB).2 ∧
    (∃ e', lrtm_count_distinct_deserial true (lrtm_count_distinct_serial cA).1 =
      Except.ok e' ∧ WF e') ∧
    WF (compact_set cA false) :=
  ⟨C7_invariants.1 cA [9] (by decide) (by decide) (by decide) (by decide),
   C7_invariants.2.1 cB true (by decide),
   C7_invariants.2.2.1 [] [] cE cD (by decide) (by decide) rfl
     (by decide) (by decide) (by decide) (by decide),
   C7_invariants.2.2.2.1 cB (by decide),
   C7_invariants.2.2.2.2.1 cA (by decide) (by decide),
   C7_invariants.2.2.2.2.2 cA (compact_set cA false).data.length
     (compact_set cA false) (by decide) rfl⟩

/-- C8: the growth policy of `compact_set`.  After the sort/dedup part
(whose output is the sorted duplicate-free contents), if space was not
requested or the free fraction is at least 20% (`5 * free >= nbytes`), the
capacity is unchanged; if space was requested and the free fraction is
below 20%, the capacity is doubled when the 1.25-grown size `nbytes / 0.8`
is below `ALLOCSET_SEPARATE_THRESHOLD` (integer form: `5 * nbytes <
4 * 8192`), and otherwise grown by the factor 1.25 (`nbytes / 0.8`,
truncated: `5 * nbytes / 4`). -/
theorem C8_growth_policy (e : element_set_t) (ns : Bool) (h : WF e) :
    SortedU (compactCore e).data ∧
    (∀ z, z ∈ (compactCore e).data ↔ z ∈ e.data) ∧
    ((ns = false ∨
        e.nbytes ≤ 5 * (e.nbytes - (compactCore e).data.length * e.item_size)) →
      (compact_set e ns).nbytes = e.nbytes) ∧
    (ns = true →
      5 * (e.nbytes - (compactCore e).data.length * e.item_size) < e.nbytes →
      (compact_set e ns).nbytes =
        (if 5 * e.nbytes < 4 * ALLOCSET_SEPARATE_THRESHOLD then 2 * e.nbytes
         else 5 * e.nbytes / 4)) := by
  have hc := compactCore_spec e h
  have hcond : (compactCore e).nbytes -
      (compactCore e).data.length * (compactCore e).item_size =
      e.nbytes - (compactCore e).data.length * e.item_size := by
    rw [hc.2.2.2.1, hc.2.2.2.2.1]
  refine ⟨hc.1, hc.2.1, ?_, ?_⟩
  · intro hno
    show (maybeGrow ns (compactCore e)).nbytes = _
    have hng : ¬(ns = true ∧ 5 * ((compactCore e).nbytes -
        (compactCore e).data.length * (compactCore e).item_size) <
        (compactCore e).nbytes) := by
      rintro ⟨hb, hlt⟩
      rcases hno with hns | hfree
      · rw [hns] at hb
        exact absurd hb (by decide)
      · rw [hcond, hc.2.2.2.1] at hlt
        omega
    unfold maybeGrow
    rw [if_neg hng]
    exact hc.2.2.2.1
  · intro hns hfree
    subst hns
    show (maybeGrow true (compactCore e)).nbytes = _
    unfold maybeGrow
    rw [if_pos ⟨rfl, by rw [hcond, hc.2.2.2.1]; exact hfree⟩]
    show growCap (compactCore e).nbytes = _
    rw [hc.2.2.2.1]
    rfl

theorem C8_witness :
    SortedU (compactCore cB).data ∧
    (∀ z, z ∈ (compactCore cB).data ↔ z ∈ cB.data) ∧
    ((true = false ∨
        cB.nbytes ≤ 5 * (cB.nbytes - (compactCore cB).data.length * cB.item_size)) →
      (compact_set cB true).nbytes = cB.nbytes) ∧
    (true = true →
      5 * (cB.nbytes - (compactCore cB).data.length * cB.item_size) < cB.nbytes →
      (compact_set cB true).nbytes =
        (if 5 * cB.nbytes < 4 * ALLOCSET_SEPARATE_THRESHOLD then 2 * cB.nbytes
         else 5 * cB.nbytes / 4)) :=
  C8_growth_policy cB true (by decide)

/-- C9 counterexample: `Combine` with both operands present does mutate its
second operand when that operand is not fully compacted:
`compact_set(eset2, false)` sorts and deduplicates it in place, here
changing its `nsorted` from 0 to 1, its `nall` from 2 to 1, and its stored
contents from two elements to one. -/
theorem C9_counterexample :
    ((combine2 [] [] cA cB).2.nsorted ≠ cB.nsorted ∨
      (combine2 [] [] cA cB).2.data ≠ cB.data) ∧
    (combine2 [] [] cA cB).2 ≠ cB := by
  decide

/-- C9 (amended): `Combine` first compacts its second operand in place
(`(combine2 g1 g2 e1 e2).2 = compact_set e2 false`), so an already fully
compacted second operand is returned entirely unchanged; the merged result
replaces the first operand, keeping its identity fields (`item_size`,
`typalign`, `aggctx`), and on tight fully compacted operands — the shape
of every pair the combine function receives — it carries the sorted
duplicate-free union of both operands' contents, whatever the slack
buffers hold. -/
theorem C9_combine_frame (g1 g2 : List Elem) (e1 e2 : element_set_t)
    (h1 : WF e1) (h2 : WF e2) (hsz : e1.item_size = e2.item_size) :
    (combine2 g1 g2 e1 e2).2 = compact_set e2 false ∧
    (e2.nsorted = e2.data.length → (combine2 g1 g2 e1 e2).2 = e2) ∧
    (combine2 g1 g2 e1 e2).1.item_size = e1.item_size ∧
    (combine2 g1 g2 e1 e2).1.typalign = e1.typalign ∧
    (combine2 g1 g2 e1 e2).1.aggctx = e1.aggctx ∧
    (e1.nsorted = e1.data.length → Tight e1 →
      e2.nsorted = e2.data.length → Tight e2 →
      SortedU (combine2 g1 g2 e1 e2).1.data ∧
      (∀ z, z ∈ (combine2 g1 g2 e1 e2).1.data ↔ z ∈ e1.data ∨ z ∈ e2.data)) := by
  have hc1 := compact_set_spec e1 false h1
  refine ⟨rfl, ?_, ?_, ?_, ?_, ?_⟩
  · intro hfull
    show compact_set e2 false = e2
    exact compact_set_false_of_full e2 hfull
  · show (compact_set e1 false).item_size = e1.item_size
    exact hc1.2.2.2.2.1
  · show (compact_set e1 false).typalign = e1.typalign
    exact hc1.2.2.2.2.2.1
  · show (compact_set e1 false).aggctx = e1.aggctx
    exact hc1.2.2.2.2.2.2.1
  · intro hf1 ht1 hf2 ht2
    have hs := combine2_spec g1 g2 e1 e2 h1 h2 hsz hf1 ht1 hf2 ht2
    exact ⟨hs.1, hs.2.1⟩

theorem C9_witness :
    ((combine2 [] [] cE cD).2 = compact_set cD false ∧
    (cD.nsorted = cD.data.length → (combine2 [] [] cE cD).2 = cD) ∧
    (combine2 [] [] cE cD).1.item_size = cE.item_size ∧
    (combine2 [] [] cE cD).1.typalign = cE.typalign ∧
    (combine2 [] [] cE cD).1.aggctx = cE.aggctx ∧
    (cE.nsorted = cE.data.length → Tight cE →
      cD.nsorted = cD.data.length → Tight cD →
      SortedU (combine2 [] [] cE cD).1.data ∧
      (∀ z, z ∈ (combine2 [] [] cE cD).1.data ↔ z ∈ cE.data ∨ z ∈ cD.data))) ∧
    (combine2 [] [] cE cD).2 = cD :=
  ⟨C9_combine_frame [] [] cE cD (by decide) (by decide) rfl,
   (C9_combine_frame [] [] cE cD (by decide) (by decide) rfl).2.1 rfl⟩

/-- C10: `add_element` never writes past the buffer.  `init_set`
establishes the capacity shape `CapInv`, every operation preserves it, and
whenever `add_element` finds that storing one more element would exceed
`nbytes` (`nbytes < item_size * (nall + 1)`), the `compact_set(_, true)`
call it makes leaves `nbytes >= item_size * (nall + 1)` — either because
growth was applied, or because a post-compaction free fraction of at least
20% already covers one element for a by-value width — so the subsequent
store stays within the allocation. -/
theorem C10_append_capacity :
    (∀ s ta cx, ByValWidth s → CapInv (init_set s ta cx)) ∧
    (∀ e ns, WF e → CapInv e → ByValWidth e.item_size → CapInv (compact_set e ns)) ∧
    (∀ e v, WF e → CapInv e → ByValWidth e.item_size → CapInv (add_element e v)) ∧
    (∀ g1 g2 e1 e2, WF e1 → WF e2 → e1.item_size = e2.item_size →
      e1.nsorted = e1.data.length → Tight e1 →
      e2.nsorted = e2.data.length → Tight e2 → 0 < e1.data.length →
      CapInv (combine2 g1 g2 e1 e2).1) ∧
    (∀ e, WF e → CapInv e → ByValWidth e.item_size →
      e.nbytes < e.item_size * (e.data.length + 1) →
      e.item_size * ((compact_set e true).data.length + 1) ≤
        (compact_set e true).nbytes) := by
  refine ⟨capInv_init, ?_, ?_, ?_, ?_⟩
  · intro e ns h hcap hw
    exact capInv_compact_set e ns h hcap (byValWidth_le8 hw)
  · intro e v h hcap hw
    exact capInv_add_element e v h hcap (byValWidth_le8 hw)
  · intro g1 g2 e1 e2 h1 h2 hsz hf1 ht1 hf2 ht2 hne
    have hs := combine2_spec g1 g2 e1 e2 h1 h2 hsz hf1 ht1 hf2 ht2
    have hlen : 0 < (combine2 g1 g2 e1 e2).1.data.length := by
      have hne' : e1.data ≠ [] := List.length_pos.1 hne
      obtain ⟨x, hx⟩ := List.exists_mem_of_ne_nil e1.data hne'
      exact List.length_pos.2 (List.ne_nil_of_mem ((hs.2.1 x).2 (Or.inl hx)))
    constructor
    · rw [hs.2.2.1, hs.2.2.2.2.1]
      calc e1.item_size = 1 * e1.item_size := (Nat.one_mul _).symm
        _ ≤ (combine2 g1 g2 e1 e2).1.data.length * e1.item_size :=
            Nat.mul_le_mul_right _ hlen
    · refine Or.inl ?_
      rw [hs.2.2.1, hs.2.2.2.2.1]
      exact Dvd.dvd.mul_left dvd_rfl _
  · intro e h hcap hw htrig
    have := compact_true_space e h hcap (byValWidth_le8 hw)
    rw [(compact_set_spec e true h).2.2.2.2.1] at this
    exact this

theorem C10_witness :
    CapInv (init_set 8 0 0) ∧
    CapInv (compact_set cB true) ∧
    CapInv (add_element cA [3]) ∧
    CapInv (combine2 [] [] cE cD).1 ∧
    (cF.nbytes < cF.item_size * (cF.data.length + 1) ∧
      cF.item_size * ((compact_set cF true).data.length + 1) ≤
        (compact_set cF true).nbytes) :=
  ⟨C10_append_capacity.1 8 0 0 (by decide),
   C10_append_capacity.2.1 cB true (by decide) (by decide) (by decide),
   C10_append_capacity.2.2.1 cA [3] (by decide) (by decide) (by decide),
   C10_append_capacity.2.2.2.1 [] [] cE cD (by decide) (by decide) rfl
     (by decide) (by decide) (by decide) (by decide) (by decide),
   ⟨by decide,
    C10_append_capacity.2.2.2.2 cF (by decide) (by decide) (by decide) (by decide)⟩⟩

end LrtmCountDistinct
